import Mathlib

/-!
# Verification of the minidb storage engine and SQL front-end

Shallow embedding of the core components of the minidb repository:
the slotted data page (`src/storage/slotted_page.cpp`), the on-disk
catalog record layouts (`src/catalog/catalog_defs.h`), the extent
manager (`src/storage/extent_manager.cpp`), the sparse IAM manager
(`src/storage/iam_manager.cpp`), the catalog manager
(`src/catalog/catalog_manager.cpp`), the SQL lexer
(`src/sql/lexer.cpp`) and the recursive-descent parser
(`src/sql/parser.cpp`).  Machine integers are modelled as `Nat`/`Int`
with explicit wrap-around (`% 2 ^ 16`) where the C++ code can overflow.
-/


/-- `PAGE_SIZE` from `config.h`: 4096-byte pages. -/
def PAGE_SIZE : ℕ := 4096

/-- `EXTENT_SIZE` from `config.h`: 8 pages per extent. -/
def EXTENT_SIZE : ℕ := 8

/-- `INVALID_PAGE_ID` from `config.h` (`int32_t`, value −1). -/
def INVALID_PAGE_ID : ℤ := -1

/-! ## Slotted page (`slotted_page.cpp`)

A slot directory entry holds `offset` and `length` (both `uint16_t`);
`length = 0` marks a tombstone.  We carry the tuple payload abstractly
as a value of type `α` together with the byte size that the C++ code
was given (`memcpy` of the raw bytes is abstracted to storing the
value).  `num_slots` is the length of the `slots` list: the C++ slot
directory is a contiguous array of exactly `num_slots` entries and
entries are never removed, so the two always agree. -/


/-- One slot directory entry (`struct Slot`) plus the payload it points
to.  `offset`/`length` mirror the two `uint16_t` fields. -/
structure MSlot (α : Type) where
  offset : ℕ
  length : ℕ
  val : α
deriving Repr, DecidableEq

/-- `sizeof(Slot)` = 2 + 2 bytes (packed). -/
def SLOT_SIZE : ℕ := 4

/-- Modelled from the spec: size of `SlottedPageHeader` under
`#pragma pack(1)` — `page_type` (4) + `lsn` (8, the `lsn_t` typedef is
not among the provided sources; the spec's header field list is used) +
`next_page_id` (4) + `prev_page_id` (4) + `num_slots` (2) +
`free_space_pointer` (2) + `tuple_count` (2) = 26 bytes. -/
def SLOTTED_HEADER_SIZE : ℕ := 26

/-- In-memory view of one slotted page (the header fields that the
operations touch, plus the slot directory). -/
structure SPage (α : Type) where
  slots : List (MSlot α)
  free_space_pointer : ℕ
  tuple_count : ℕ
deriving Repr, DecidableEq

/-- `SlottedPage(buffer, init := true)`: fresh page with
`free_space_pointer = PAGE_SIZE`, no slots, `tuple_count = 0`. -/
def SPage.init (α : Type) : SPage α :=
  { slots := [], free_space_pointer := PAGE_SIZE, tuple_count := 0 }

/-- `get_num_slots()`. -/
def SPage.numSlots {α : Type} (p : SPage α) : ℕ := p.slots.length

/-- `get_free_space()`:
`free_space_pointer − (sizeof(header) + num_slots*sizeof(Slot))`,
clamped to 0 exactly as the C++ code does when the header area would
exceed the pointer. -/
def SPage.freeSpace {α : Type} (p : SPage α) : ℕ :=
  let headers := SLOTTED_HEADER_SIZE + p.numSlots * SLOT_SIZE
  if p.free_space_pointer < headers then 0
  else p.free_space_pointer - headers

/-- Scan of the slot directory for a tombstone (`length == 0`),
carrying the index of the head of the remaining list. -/
def findTombAux {α : Type} : List (MSlot α) → ℕ → Option ℕ
  | [], _ => none
  | s :: rest, i => if s.length = 0 then some i else findTombAux rest (i + 1)

/-- Index of the first tombstoned slot (`length == 0`), if any —
the scan at the top of `insert_tuple`. -/
def SPage.firstFree {α : Type} (p : SPage α) : Option ℕ :=
  findTombAux p.slots 0

/-- `insert_tuple(tuple_data, tuple_size)`: returns the slot id (or −1
when there is not enough space) and the updated page.  `tuple_count` is
a `uint16_t`, kept modulo `2 ^ 16`. -/
def SPage.insertTuple {α : Type} (p : SPage α) (v : α) (tuple_size : ℕ) :
    ℤ × SPage α :=
  let target := p.firstFree
  let needed := match target with
    | some _ => tuple_size
    | none => tuple_size + SLOT_SIZE
  if p.freeSpace < needed then (-1, p)
  else
    let fsp := p.free_space_pointer - tuple_size
    match target with
    | some i =>
        ((i : ℤ),
         { slots := p.slots.set i ⟨fsp, tuple_size, v⟩,
           free_space_pointer := fsp,
           tuple_count := (p.tuple_count + 1) % 2 ^ 16 })
    | none =>
        ((p.numSlots : ℤ),
         { slots := p.slots ++ [⟨fsp, tuple_size, v⟩],
           free_space_pointer := fsp,
           tuple_count := (p.tuple_count + 1) % 2 ^ 16 })

/-- `get_tuple(slot_id, &size)`: `none` for an out-of-range slot id or
a tombstone, otherwise the payload and its size. -/
def SPage.getTuple {α : Type} (p : SPage α) (slot_id : ℕ) :
    Option (α × ℕ) :=
  match p.slots[slot_id]? with
  | none => none
  | some s => if s.length = 0 then none else some (s.val, s.length)

/-- `delete_tuple(slot_id)`: bounds check, then set `length := 0` and
decrement `tuple_count` (a `uint16_t`, so 0 − 1 wraps to 65535). -/
def SPage.deleteTuple {α : Type} (p : SPage α) (slot_id : ℕ) :
    Bool × SPage α :=
  match p.slots[slot_id]? with
  | none => (false, p)
  | some s =>
      (true,
       { slots := p.slots.set slot_id { s with length := 0 },
         free_space_pointer := p.free_space_pointer,
         tuple_count := (p.tuple_count + (2 ^ 16 - 1)) % 2 ^ 16 })

/-- An operation on a slotted page: an insert (payload and byte size)
or a delete of a slot id. -/
inductive SPOp (α : Type) where
  | ins (v : α) (size : ℕ)
  | del (i : ℕ)
deriving Repr, DecidableEq

/-- Apply a list of operations to a fresh slotted page. -/
def SPage.applyOps {α : Type} (ops : List (SPOp α)) : SPage α :=
  ops.foldl
    (fun p op =>
      match op with
      | .ins v sz => (p.insertTuple v sz).2
      | .del i => (p.deleteTuple i).2)
    (SPage.init α)

/-- Number of live (non-tombstoned) slots of a page. -/
def SPage.liveCount {α : Type} (p : SPage α) : ℕ :=
  (p.slots.filter (fun s => s.length ≠ 0)).length

/-! ## On-disk catalog record layout (`catalog_defs.h`)

`SysTablesRecord` and `SysColumnsRecord` are declared *without*
`#pragma pack(1)` (unlike every other on-disk struct of the repo), so
the compiler lays them out with default alignment.  We embed the
standard C++ layout algorithm (Itanium ABI, no packing): each field is
placed at its offset rounded up to its alignment, and `sizeof` is the
end of the last field rounded up to the struct's alignment. -/


/-- Round `n` up to a multiple of the alignment `a`. -/
def alignUp (n a : ℕ) : ℕ := ((n + a - 1) / a) * a

/-- One C++ struct field: byte size and alignment requirement. -/
structure CField where
  size : ℕ
  align : ℕ
deriving Repr, DecidableEq

/-- Offsets assigned to a field list by the default (unpacked) C++
layout, together with the resulting `sizeof`. -/
def cppLayout (fields : List CField) : List ℕ × ℕ :=
  let step := fields.foldl
    (fun (acc : List ℕ × ℕ × ℕ) f =>
      let off := alignUp acc.2.1 f.align
      (acc.1 ++ [off], off + f.size, max acc.2.2 f.align))
    ([], 0, 1)
  (step.1, alignUp step.2.1 step.2.2)

/-- Offsets and `sizeof` under `#pragma pack(1)`: fields are laid out
back to back. -/
def packedLayout (fields : List CField) : List ℕ × ℕ :=
  let step := fields.foldl
    (fun (acc : List ℕ × ℕ) f => (acc.1 ++ [acc.2], acc.2 + f.size))
    ([], 0)
  step

/-- `SysTablesRecord` fields: `oid : uint32_t`, `name : char[32]`,
`first_page_id : page_id_t` (= `int32_t`), `column_count : uint16_t`. -/
def sysTablesFields : List CField :=
  [⟨4, 4⟩, ⟨32, 1⟩, ⟨4, 4⟩, ⟨2, 2⟩]

/-- `SysColumnsRecord` fields: `table_oid : uint32_t`,
`name : char[32]`, `type : DataType` (`uint8_t`), `length : uint16_t`,
`offset : uint16_t`. -/
def sysColumnsFields : List CField :=
  [⟨4, 4⟩, ⟨32, 1⟩, ⟨1, 1⟩, ⟨2, 2⟩, ⟨2, 2⟩]

/-! ## Extent manager (`extent_manager.cpp`)

The GAM chain is a linked list of `BitmapPage`s; we model it as a Lean
list in chain order (`next_bitmap_page_id` links are the list
structure, which `allocate_extent` maintains in creation order).  The
in-memory GAM cache of the C++ class is write-through (every mutation
is immediately written back to disk), so cached and on-disk bytes never
differ and the model keeps a single copy.  The allocator cursor
`last_known_free_gam_index_` is kept; `last_known_free_gam_id_` always
equals the id of the page at that chain position and is derived. -/


/-- Modelled from the spec: `MAX_BITS`, the number of bits of one GAM
page (its defining header is not among the provided sources).  The
`BitmapPage` struct in `storage_def.h` has `char bitmap[PAGE_SIZE − 8]`
= 4088 bytes = 32704 bits, matching the comment in `allocate_extent`
("a GAM has ~32,704 bits") and the spec's
`(PAGE_SIZE − sizeof(header)) × 8`. -/
def MAX_BITS : ℕ := 32704

/-- `Bitmap::is_set`: bounds-checked read (false out of range). -/
def bmIsSet (bits : List Bool) (i : ℕ) : Bool := bits.getD i false

/-- `Bitmap::set`: bounds-checked write (no-op out of range, exactly
like `List.set`). -/
def bmSet (bits : List Bool) (i : ℕ) : List Bool := bits.set i true

/-- `Bitmap::clear`: bounds-checked write (no-op out of range). -/
def bmClear (bits : List Bool) (i : ℕ) : List Bool := bits.set i false

/-- One GAM page: its page id and its bitmap (`MAX_BITS` bits). -/
structure GamPage where
  id : ℕ
  bits : List Bool
deriving Repr, DecidableEq

/-- Extent-manager state: the GAM chain in link order, the header's
`total_pages`, and the cursor `last_known_free_gam_index_`. -/
structure EmState where
  gams : List GamPage
  total_pages : ℕ
  cursor : ℕ
deriving Repr, DecidableEq

/-- `initialize_new_db()`: `total_pages = EXTENT_SIZE`, one GAM at page
1 whose bit 0 (the system extent) is set, cursor at the first GAM. -/
def emInit : EmState :=
  { gams := [⟨1, bmSet (List.replicate MAX_BITS false) 0⟩],
    total_pages := EXTENT_SIZE,
    cursor := 0 }

/-- Index of the first clear bit of a bitmap, if any (the scan loop of
`allocate_extent`). -/
def findFirstClear : List Bool → Option ℕ
  | [] => none
  | b :: rest =>
      if b then (findFirstClear rest).map (· + 1) else some 0

/-- Candidate page id for a new GAM page: `current_gam_page_id + 1`,
skipping the two IAM pages (`if (candidate == 2) candidate += 2`). -/
def gamCandidate (id : ℕ) : ℕ :=
  if id + 1 = 2 then id + 1 + 2 else id + 1

/-- One round of the `allocate_extent` loop, starting at chain position
`idx`.  `fuel` bounds the number of rounds; `gams.length − idx + 2`
rounds always suffice because a freshly created GAM page has a clear
bit.  Returns the start page id of the allocated extent and the new
state.  The fuel-exhaustion and index-out-of-range fallbacks are
unreachable and return page id 0. -/
def allocFrom : EmState → ℕ → ℕ → ℕ × EmState
  | s, _, 0 => (0, s)
  | s, idx, fuel + 1 =>
    match s.gams[idx]? with
    | none => (0, s)
    | some g =>
      match findFirstClear g.bits with
      | some i =>
          (EXTENT_SIZE * (idx * MAX_BITS + i),
           { s with gams := s.gams.set idx { g with bits := bmSet g.bits i } })
      | none =>
          if idx + 1 < s.gams.length then
            -- full GAM with a successor: advance and move the cursor up
            allocFrom { s with cursor := idx + 1 } (idx + 1) fuel
          else
            -- end of chain: create a new GAM page
            if gamCandidate g.id < EXTENT_SIZE then
              -- packed into a spare slot of the system extent
              allocFrom
                { s with
                    gams := s.gams
                      ++ [⟨gamCandidate g.id, List.replicate MAX_BITS false⟩] }
                (idx + 1) fuel
            else
              -- extend the file; the new GAM self-marks its bit 0
              allocFrom
                { s with
                    gams := s.gams
                      ++ [⟨s.total_pages,
                           bmSet (List.replicate MAX_BITS false) 0⟩],
                    total_pages := s.total_pages + EXTENT_SIZE }
                (idx + 1) fuel

/-- `allocate_extent()`: run the loop from the cached cursor. -/
def emAlloc (s : EmState) : ℕ × EmState :=
  allocFrom s s.cursor (s.gams.length - s.cursor + 2)

/-- Conversion of the C++ expression
`size_t extent_index = start_page_id / EXTENT_SIZE` for a possibly
negative `page_id_t`: truncating `int` division, then conversion to
the unsigned 64-bit `size_t`. -/
def extentIndexOf (start_page_id : ℤ) : ℕ :=
  ((start_page_id.tdiv (EXTENT_SIZE : ℤ)) % (2 ^ 64 : ℤ)).toNat

/-- `deallocate_extent(start_page_id)`: locate the owning GAM by
walking `extent_index / MAX_BITS` links (bailing out unchanged if the
chain ends early), clear the bit, and rewind the cursor if the cleared
position precedes it. -/
def emDealloc (s : EmState) (start_page_id : ℤ) : EmState :=
  let extent_index := extentIndexOf start_page_id
  let gidx := extent_index / MAX_BITS
  let bit := extent_index % MAX_BITS
  match s.gams[gidx]? with
  | none => s
  | some g =>
      { s with
          gams := s.gams.set gidx { g with bits := bmClear g.bits bit },
          cursor := if gidx < s.cursor then gidx else s.cursor }

/-- `n` successive `allocate_extent` calls on a freshly bootstrapped
database: final state and the list of returned start page ids. -/
def emRun : ℕ → EmState × List ℕ
  | 0 => (emInit, [])
  | n + 1 =>
      let (s, rs) := emRun n
      let (p, s') := emAlloc s
      (s', rs ++ [p])

/-- Whether global extent `e` is marked allocated somewhere in a GAM
chain (bit `e % MAX_BITS` of chain page `e / MAX_BITS`). -/
def extAlloc (gams : List GamPage) (e : ℕ) : Bool :=
  match gams[e / MAX_BITS]? with
  | none => false
  | some g => bmIsSet g.bits (e % MAX_BITS)

/-- Well-formedness of extent-manager states reachable from bootstrap:
bitmaps have the right size, the cursor is in range, and the system
extent's bit stays set. -/
def EmGood (s : EmState) : Prop :=
  (∀ g ∈ s.gams, g.bits.length = MAX_BITS) ∧
  s.cursor < s.gams.length ∧
  extAlloc s.gams 0 = true

/-- A database state whose single GAM page (page 1) is completely
full — the setup of the GAM-chain-growth scenario. -/
def gamFullInit : EmState :=
  { gams := [⟨1, List.replicate MAX_BITS true⟩],
    total_pages := EXTENT_SIZE,
    cursor := 0 }

/-! ## Sparse IAM manager (`iam_manager.cpp`, sparse variant)

A sparse IAM chain is a linked list of `SparseIamPage`s; the model is a
Lean list in link order.  `allocate_extent_sparse` first obtains a
physical extent from the Extent Manager; only the chain bookkeeping is
modelled here, with the obtained global extent index `g` as an input —
the claims' chain-structure properties hold for *every* value the
Extent Manager could hand out.  The page ids of the IAM pages
themselves do not influence the chain structure and are omitted. -/


/-- Modelled from the spec: `SPARSE_MAX_BITS`, the bits of one sparse
IAM page (the `#define` is not among the provided sources).  The
`SparseIamPage` struct in `storage_def.h` has
`char bitmap[SPARSE_BITMAP_ARRAY_SIZE]` documented as
"4080 bytes = 32640 bits", and the test file says "SPARSE_MAX_BITS
boundary (32640)". -/
def SPARSE_MAX_BITS : ℕ := 32640

/-- One sparse IAM page: `extent_range_start` and its bitmap. -/
structure IamPage where
  extent_range_start : ℕ
  bits : List Bool
deriving Repr, DecidableEq

/-- `IamManager::calculate_sparse_range_start`. -/
def calculate_sparse_range_start (g : ℕ) : ℕ :=
  g / SPARSE_MAX_BITS * SPARSE_MAX_BITS

/-- `create_iam_chain()`: one sparse IAM page covering range 0 with an
empty bitmap. -/
def create_iam_chain : List IamPage :=
  [⟨0, List.replicate SPARSE_MAX_BITS false⟩]

/-- The chain walk of `find_or_create_iam_page_for_extent` fused with
the bit-setting of `allocate_extent_sparse`, for target range `r` and
bit offset `b`: find the page with range `r` (setting bit `b` unless it
is already set, which the code treats as corruption and leaves the
chain untouched), insert a new page before the first page with a
larger range, or append at the chain end. -/
def iamAllocGo (r b : ℕ) : List IamPage → List IamPage
  | [] => [⟨r, bmSet (List.replicate SPARSE_MAX_BITS false) b⟩]
  | p :: rest =>
      if p.extent_range_start = r then
        if bmIsSet p.bits b then p :: rest
        else { p with bits := bmSet p.bits b } :: rest
      else if r < p.extent_range_start then
        ⟨r, bmSet (List.replicate SPARSE_MAX_BITS false) b⟩ :: p :: rest
      else
        p :: iamAllocGo r b rest

/-- `allocate_extent(iam_head)` for a physical extent with global
extent index `g`. -/
def iamAlloc (g : ℕ) (chain : List IamPage) : List IamPage :=
  iamAllocGo (calculate_sparse_range_start g)
    (g - calculate_sparse_range_start g) chain

/-- Chain produced by `create_iam_chain` followed by one
`allocate_extent` per element of `gs` (the global extent indexes the
Extent Manager handed out, in order). -/
def iamRun (gs : List ℕ) : List IamPage :=
  gs.foldl (fun c g => iamAlloc g c) create_iam_chain

/-- Global extent indexes owned by one sparse IAM page: the set bits
shifted by `extent_range_start`. -/
def pageOwned (p : IamPage) : List ℕ :=
  ((List.range SPARSE_MAX_BITS).filter (fun b => bmIsSet p.bits b)).map
    (fun b => p.extent_range_start + b)

/-- Global extent indexes owned by the whole chain. -/
def chainOwned (c : List IamPage) : List ℕ :=
  c.flatMap pageOwned

/-- The range starts of the owned extents of one page, as a set. -/
def pageOwnedStarts (p : IamPage) : Finset ℕ :=
  ((pageOwned p).map calculate_sparse_range_start).toFinset

/-- The range starts of the owned extents of the chain. -/
def chainOwnedStarts (c : List IamPage) : Finset ℕ :=
  ((chainOwned c).map calculate_sparse_range_start).toFinset

/-- Invariant of sparse IAM chains reachable through the manager:
strictly sorted range starts, aligned ranges with full-size bitmaps,
and the set of range starts is the head range 0 together with the
range starts of all owned extents. -/
def IamInv (c : List IamPage) : Prop :=
  List.Pairwise (· < ·) (c.map IamPage.extent_range_start) ∧
  (∀ p ∈ c, p.extent_range_start % SPARSE_MAX_BITS = 0 ∧
     p.bits.length = SPARSE_MAX_BITS) ∧
  (c.map IamPage.extent_range_start).toFinset
    = insert 0 (chainOwnedStarts c)

/-! ## SQL lexer (`lexer.cpp`)

The lexer works on ASCII SQL text, modelled as `List Char`.  Token
kinds follow `token.h` (the enum referenced by the parser and by the
lexer tests; keyword constructors are prefixed `kw` since some keyword
names are Lean keywords). -/


inductive TokType where
  | identifier | intLit | floatLit | strLit | dateLit | timestampLit
  | boolLit | nullLit
  | kwSelect | kwFrom | kwWhere | kwInsert | kwInto | kwValues
  | kwUpdate | kwSet | kwDelete | kwCreate | kwTable | kwDrop
  | kwInt | kwFloat | kwVarchar | kwBool | kwJoin | kwOn
  | kwAnd | kwOr | kwNot | kwIs | kwTrue | kwFalse
  | kwAs | kwLimit | kwOffset
  | kwGroup | kwBy
  | eq | ne | gt | lt | gte | lte
  | star | comma | dot | lparen | rparen | semicolon
  | unknown | eofile
deriving Repr, DecidableEq

/-- A token: kind plus original text. -/
structure Tok where
  type : TokType
  text : List Char
deriving Repr, DecidableEq

/-- The single-quote character. -/
def quoteChar : Char := '\''

/-- `isspace` over the four whitespace characters the lexer skips. -/
def isWS (c : Char) : Bool :=
  c = ' ' || c = '\t' || c = '\r' || c = '\n'

/-- ASCII `isdigit`. -/
def isDigitA (c : Char) : Bool := 48 ≤ c.toNat && c.toNat ≤ 57

/-- ASCII `isalpha`. -/
def isAlphaA (c : Char) : Bool :=
  (65 ≤ c.toNat && c.toNat ≤ 90) || (97 ≤ c.toNat && c.toNat ≤ 122)

/-- `isalnum(c) || c == '_'` — the identifier continuation test. -/
def isWordChar (c : Char) : Bool :=
  isAlphaA c || isDigitA c || c = '_'

/-- ASCII `toupper`. -/
def toUpperA (c : Char) : Char :=
  if 97 ≤ c.toNat && c.toNat ≤ 122 then Char.ofNat (c.toNat - 32)
  else c

/-- `keyword_map()` from `keywords.h`. -/
def keywordLookup (s : List Char) : Option TokType :=
  if s = "SELECT".toList then some .kwSelect
  else if s = "FROM".toList then some .kwFrom
  else if s = "WHERE".toList then some .kwWhere
  else if s = "INSERT".toList then some .kwInsert
  else if s = "INTO".toList then some .kwInto
  else if s = "VALUES".toList then some .kwValues
  else if s = "UPDATE".toList then some .kwUpdate
  else if s = "SET".toList then some .kwSet
  else if s = "DELETE".toList then some .kwDelete
  else if s = "CREATE".toList then some .kwCreate
  else if s = "TABLE".toList then some .kwTable
  else if s = "DROP".toList then some .kwDrop
  else if s = "INT".toList then some .kwInt
  else if s = "FLOAT".toList then some .kwFloat
  else if s = "VARCHAR".toList then some .kwVarchar
  else if s = "BOOL".toList then some .kwBool
  else if s = "JOIN".toList then some .kwJoin
  else if s = "ON".toList then some .kwOn
  else if s = "AND".toList then some .kwAnd
  else if s = "OR".toList then some .kwOr
  else if s = "NOT".toList then some .kwNot
  else if s = "IS".toList then some .kwIs
  else if s = "NULL".toList then some .nullLit
  else if s = "TRUE".toList then some .kwTrue
  else if s = "FALSE".toList then some .kwFalse
  else if s = "AS".toList then some .kwAs
  else if s = "LIMIT".toList then some .kwLimit
  else if s = "OFFSET".toList then some .kwOffset
  else none

/-- `Lexer::next_token()`: skip whitespace, then dispatch on the first
character.  `make_string` (the single-quote case) collects characters
up to the closing quote but — exactly like the C++ `while
(!has_ended() && peek() != quote)` loop with no `advance()`
afterwards — does *not* consume the closing quote, and always yields a
`STRING_LITERAL`. -/
def lexNext : List Char → Tok × List Char
  | [] => (⟨.eofile, []⟩, [])
  | c :: cs =>
    if isWS c then lexNext cs
    else if c = '*' then (⟨.star, [c]⟩, cs)
    else if c = '.' then (⟨.dot, [c]⟩, cs)
    else if c = ',' then (⟨.comma, [c]⟩, cs)
    else if c = '(' then (⟨.lparen, [c]⟩, cs)
    else if c = ')' then (⟨.rparen, [c]⟩, cs)
    else if c = ';' then (⟨.semicolon, [c]⟩, cs)
    else if c = quoteChar then
      (⟨.strLit, cs.takeWhile (fun d => d ≠ quoteChar)⟩,
       cs.dropWhile (fun d => d ≠ quoteChar))
    else if c = '=' then (⟨.eq, [c]⟩, cs)
    else if c = '!' then
      if cs.head? = some '=' then (⟨.ne, [c, '=']⟩, cs.tail)
      else (⟨.unknown, [c]⟩, cs)
    else if c = '<' then
      if cs.head? = some '=' then (⟨.lte, [c, '=']⟩, cs.tail)
      else (⟨.lt, [c]⟩, cs)
    else if c = '>' then
      if cs.head? = some '=' then (⟨.gte, [c, '=']⟩, cs.tail)
      else (⟨.gt, [c]⟩, cs)
    else if isDigitA c then
      (⟨.intLit, c :: cs.takeWhile isDigitA⟩, cs.dropWhile isDigitA)
    else if isAlphaA c || c = '_' then
      let text := c :: cs.takeWhile isWordChar
      match keywordLookup (text.map toUpperA) with
      | some t => (⟨t, text⟩, cs.dropWhile isWordChar)
      | none => (⟨.identifier, text⟩, cs.dropWhile isWordChar)
    else (⟨.unknown, [c]⟩, cs)

/-- `Lexer::tokenize()`: collect tokens up to and including the
`EOF_FILE` token.  The fuel is an upper bound on the number of tokens;
`length + 1` always suffices since every non-EOF token consumes at
least one character. -/
def lexAll : ℕ → List Char → List Tok
  | 0, _ => []
  | fuel + 1, cs =>
      match lexNext cs with
      | (t, rest) =>
          match t.type with
          | .eofile => [t]
          | _ => t :: lexAll fuel rest

/-- Tokenize a whole input. -/
def tokenize (s : List Char) : List Tok := lexAll (s.length + 1) s

/-- The input of the repo's `DateLiteral` lexer test:
`SELECT '2025-10-31' FROM events;`. -/
def selDateInput : List Char :=
  "SELECT ".toList ++ [quoteChar] ++ "2025-10-31".toList
    ++ [quoteChar] ++ " FROM events;".toList

/-! ## SQL parser (`parser.cpp`)

Recursive descent over the token stream.  The parser position is
modelled by the remaining suffix of the token list; `Parser::match`
is `tokMatch` (false at end of stream), `advance`/`ensure`/`peek`
are inlined as head matches.  While-loops are fueled; the fuel only
bounds expression nesting/chaining, so any fuel at least the token
count is enough.  `std::stod` on float literals and `sscanf` on
date/timestamp literals are not modelled: those `LiteralNode`
variants keep the raw token text (no claim depends on the converted
values); `std::stoll` on an int literal is modelled by `stollDigits`,
faithful for the digit-only texts the lexer produces. -/


/-- `Parser::match(type)`: `!(is_at_end() || peek().type != type)`. -/
def tokMatch (ty : TokType) : List Tok → Bool
  | [] => false
  | t :: _ => t.type = ty

/-- `std::stoll` on the digit strings produced by `make_numbers`. -/
def stollDigits (s : List Char) : ℤ :=
  (s.foldl (fun a c => a * 10 + (c.toNat - 48)) 0 : ℕ)

/-- Expression AST (`ExpressionNode` and its subclasses). -/
inductive PExpr where
  | intL (v : ℤ)
  | floatText (s : List Char)
  | strL (s : List Char)
  | dateText (s : List Char)
  | tsText (s : List Char)
  | ident (name : List Char)
  | qualIdent (q m : List Char)
  | binOp (l : PExpr) (op : List Char) (r : PExpr)
deriving Repr, DecidableEq

/-- `true` for the six relational token types tested by the
`parse_relational_expression` loop head. -/
def isRelTok (ty : TokType) : Bool :=
  ty = .eq || ty = .ne || ty = .lt || ty = .lte || ty = .gt || ty = .gte

mutual

/-- `Parser::parse_logical_expression`. -/
def parseLogical : ℕ → List Tok → Except String (PExpr × List Tok)
  | 0, _ => .error "fuel exhausted"
  | f + 1, ts => do
      let (l, ts1) ← parseAnd f ts
      parseOrLoop f l ts1

/-- The `while (match(OR))` loop of `parse_logical_expression`. -/
def parseOrLoop : ℕ → PExpr → List Tok → Except String (PExpr × List Tok)
  | 0, _, _ => .error "fuel exhausted"
  | f + 1, left, t :: rest =>
      if t.type = TokType.kwOr then do
        let (r, ts2) ← parseAnd f rest
        parseOrLoop f (PExpr.binOp left t.text r) ts2
      else .ok (left, t :: rest)
  | _ + 1, left, [] => .ok (left, [])

/-- `Parser::parse_and_expression`. -/
def parseAnd : ℕ → List Tok → Except String (PExpr × List Tok)
  | 0, _ => .error "fuel exhausted"
  | f + 1, ts => do
      let (l, ts1) ← parseRel f ts
      parseAndLoop f l ts1

/-- The `while (match(AND))` loop of `parse_and_expression`. -/
def parseAndLoop : ℕ → PExpr → List Tok → Except String (PExpr × List Tok)
  | 0, _, _ => .error "fuel exhausted"
  | f + 1, left, t :: rest =>
      if t.type = TokType.kwAnd then do
        let (r, ts2) ← parseRel f rest
        parseAndLoop f (PExpr.binOp left t.text r) ts2
      else .ok (left, t :: rest)
  | _ + 1, left, [] => .ok (left, [])

/-- `Parser::parse_relational_expression`. -/
def parseRel : ℕ → List Tok → Except String (PExpr × List Tok)
  | 0, _ => .error "fuel exhausted"
  | f + 1, ts => do
      let (l, ts1) ← parsePrimary f ts
      parseRelLoop f l ts1

/-- The `while (peek().type == EQ || ...)` loop.  (C++ uses `peek()`
directly here; lexer outputs always end in an `EOF_FILE` token, so the
end-of-list case below is never reached on them.) -/

def parseRelLoop : ℕ → PExpr → List Tok → Except String (PExpr × List Tok)
  | 0, _, _ => .error "fuel exhausted"
  | f + 1, left, t :: rest =>
      if isRelTok t.type then do
        let (r, ts2) ← parsePrimary f rest
        parseRelLoop f (PExpr.binOp left t.text r) ts2
      else .ok (left, t :: rest)
  | _ + 1, left, [] => .ok (left, [])

/-- `Parser::parse_value_or_identifier`. -/
def parsePrimary : ℕ → List Tok → Except String (PExpr × List Tok)
  | 0, _ => .error "fuel exhausted"
  | f + 1, t :: rest =>
      if t.type = TokType.intLit then .ok (PExpr.intL (stollDigits t.text), rest)
      else if t.type = TokType.floatLit then .ok (PExpr.floatText t.text, rest)
      else if t.type = TokType.dateLit then .ok (PExpr.dateText t.text, rest)
      else if t.type = TokType.timestampLit then .ok (PExpr.tsText t.text, rest)
      else if t.type = TokType.strLit then .ok (PExpr.strL t.text, rest)
      else if t.type = TokType.identifier then
        match rest with
        | d :: rest2 =>
            if d.type = TokType.dot then
              match rest2 with
              | m :: rest3 =>
                  if m.type = TokType.identifier then
                    .ok (PExpr.qualIdent t.text m.text, rest3)
                  else .error "Expected column name after dot"
              | [] => .error "Expected column name after dot"
            else .ok (PExpr.ident t.text, d :: rest2)
        | [] => .ok (PExpr.ident t.text, [])
      else if t.type = TokType.lparen then do
        let (e, ts2) ← parseLogical f rest
        match ts2 with
        | r :: ts3 =>
            if r.type = TokType.rparen then .ok (e, ts3)
            else .error "Expected rparen after expression."
        | [] => .error "Expected rparen after expression."
      else .error "Unexpected token in expression"
  | _ + 1, [] => .error "Unexpected token in expression"

end

/-- One entry of a SELECT column list (`SelectColumn`). -/
structure SelectCol where
  expr : PExpr
  aliasName : Option (List Char)
deriving Repr, DecidableEq

/-- `TableReference`: table name with optional alias. -/
structure TableRef where
  name : List Char
  aliasName : Option (List Char)
deriving Repr, DecidableEq

/-- `JoinClause`: joined table and ON condition. -/
structure JoinClause where
  table : TableRef
  onCond : PExpr
deriving Repr, DecidableEq

/-- `SelectStatementNode` (group_by omitted: see `parseSelectRest`). -/
structure SelectStmt where
  isSelectAll : Bool
  columns : List SelectCol
  fromClause : TableRef
  joins : List JoinClause
  whereClause : Option PExpr
deriving Repr, DecidableEq

/-- `Parser::extract_column`: identifier or qualified identifier. -/
def extractColumn : List Tok → Except String (PExpr × List Tok)
  | t :: rest =>
      if t.type = TokType.identifier then
        match rest with
        | d :: rest2 =>
            if d.type = TokType.dot then
              match rest2 with
              | m :: rest3 =>
                  if m.type = TokType.identifier then
                    .ok (PExpr.qualIdent t.text m.text, rest3)
                  else .error "Expected column name after dot"
              | [] => .error "Expected column name after dot"
            else .ok (PExpr.ident t.text, d :: rest2)
        | [] => .ok (PExpr.ident t.text, [])
      else .error "Expected identifier"
  | [] => .error "Expected identifier"

/-- Optional `AS alias` after a column expression. -/
def parseAlias : PExpr → List Tok → Except String (SelectCol × List Tok)
  | e, a :: rest =>
      if a.type = TokType.kwAs then
        match rest with
        | n :: rest2 =>
            if n.type = TokType.identifier then .ok (⟨e, some n.text⟩, rest2)
            else .error "Expected alias name."
        | [] => .error "Expected alias name."
      else .ok (⟨e, none⟩, a :: rest)
  | e, [] => .ok (⟨e, none⟩, [])

/-- `Parser::parse_columns_collection`: the do-while loop. -/
def parseColsLoop : ℕ → List SelectCol → List Tok → Except String (List SelectCol × List Tok)
  | 0, _, _ => .error "fuel exhausted"
  | f + 1, acc, ts => do
      let ts1 := match ts with
                 | t :: rest => if t.type = TokType.comma then rest else t :: rest
                 | [] => []
      let (e, ts2) ← extractColumn ts1
      let (col, ts3) ← parseAlias e ts2
      if tokMatch TokType.comma ts3 then parseColsLoop f (acc ++ [col]) ts3
      else .ok (acc ++ [col], ts3)

/-- `Parser::parse_from_table_ref`: table name with optional
explicit (`AS x`) or implicit (bare identifier) alias. -/
def parseTableRef : List Tok → Except String (TableRef × List Tok)
  | t :: rest =>
      if t.type = TokType.identifier then
        match rest with
        | a :: rest2 =>
            if a.type = TokType.kwAs then
              match rest2 with
              | n :: rest3 =>
                  if n.type = TokType.identifier then .ok (⟨t.text, some n.text⟩, rest3)
                  else .error "Expected alias for table."
              | [] => .error "Expected alias for table."
            else if a.type = TokType.identifier then .ok (⟨t.text, some a.text⟩, rest2)
            else .ok (⟨t.text, none⟩, a :: rest2)
        | [] => .ok (⟨t.text, none⟩, [])
      else .error "Expected table name."
  | [] => .error "Expected table name."

/-- The part of `parse_select_node` after the column list: FROM
clause, single optional JOIN, optional WHERE.  The GROUP branch is
modelled as an error: `keyword_map()` has no GROUP entry, so the lexer
never emits a GROUP token and that branch is dead on lexer outputs. -/
def parseSelectRest (fuel : ℕ) (isAll : Bool) (cols : List SelectCol) (ts : List Tok) :
    Except String (SelectStmt × List Tok) := do
  let ts1 ← match ts with
            | t :: rest =>
                if t.type = TokType.kwFrom then Except.ok rest
                else Except.error "Expected identifier From."
            | [] => Except.error "Expected identifier From."
  let (fr, ts2) ← parseTableRef ts1
  let (joins, ts3) ← (
      if tokMatch TokType.kwJoin ts2 then do
        let (jt, tsa) ← parseTableRef ts2.tail
        let tsb ← match tsa with
                  | t :: rest =>
                      if t.type = TokType.kwOn then Except.ok rest
                      else Except.error "Expected ON keyword for JOIN clause."
                  | [] => Except.error "Expected ON keyword for JOIN clause."
        let (oc, tsc) ← parseLogical fuel tsb
        Except.ok ([(⟨jt, oc⟩ : JoinClause)], tsc)
      else Except.ok (([] : List JoinClause), ts2))
  let (wh, ts4) ← (
      if tokMatch TokType.kwWhere ts3 then do
        let (w, tsa) ← parseLogical fuel ts3.tail
        Except.ok (some w, tsa)
      else Except.ok ((none : Option PExpr), ts3))
  if tokMatch TokType.kwGroup ts4 then
    Except.error "GROUP BY unreachable on lexer outputs"
  else Except.ok (⟨isAll, cols, fr, joins, wh⟩, ts4)

/-- `Parser::parse_select_node`: advance past SELECT, `*` or column
list, then the remaining clauses. -/
def parseSelectNode (fuel : ℕ) (ts : List Tok) : Except String (SelectStmt × List Tok) := do
  let ts0 ← match ts with
            | _ :: rest => Except.ok rest
            | [] => Except.error "Cannot advance past the end of tokens."
  if tokMatch TokType.star ts0 then
    parseSelectRest fuel true [] ts0.tail
  else do
    let (cols, ts1) ← parseColsLoop fuel [] ts0
    parseSelectRest fuel false cols ts1

/-- The claim's input `SELECT x FROM t WHERE a = 1 OR b = 2 AND c = 3`. -/
def selPrecInput : List Char :=
  "SELECT x FROM t WHERE a = 1 OR b = 2 AND c = 3".toList

/-- An identifier token. -/
def idTok (n : List Char) : Tok := ⟨.identifier, n⟩

/-- The `OR`, `AND`, `<`, `>` and `EOF` tokens used below. -/
def orTok : Tok := ⟨.kwOr, "OR".toList⟩

def andTok : Tok := ⟨.kwAnd, "AND".toList⟩

def ltTok : Tok := ⟨.lt, "<".toList⟩

def gtTok : Tok := ⟨.gt, ">".toList⟩

def eofTok : Tok := ⟨.eofile, []⟩

/-! ## Catalog manager (`schema.h`: `bootstrap` / `get_table` /
`create_table`)

Catalog records are modelled as structured values; the `char[32]` name
buffers written by `strncpy` and read back as C strings are modelled
explicitly.  Every catalog write goes to the first data page of the
table's first extent: `bootstrap()` writes to the pages returned by
the two `IamManager::allocate_extent` calls (pages 8 and 16 on a fresh
file) and `create_table` hardcodes pages 8 and 16, which coincide.
The remaining pages of those extents are never written and stay
zeroed, and a zeroed page has `num_slots = 0`, so the full
IAM-bit/extent/page scans of `get_table` see exactly the slots of
those two pages, in slot order. -/


/-- The NUL character (`strncpy` padding / C string terminator). -/
def NULC : Char := Char.ofNat 0

/-- `MAX_NAME_LENGTH` from `catalog_defs.h`. -/
def MAX_NAME_LENGTH : ℕ := 32

/-- `strncpy(dest, src, MAX_NAME_LENGTH)` into a `char[32]` buffer:
the first 32 source characters, NUL-padded when the source is
shorter. -/
def nameStore (s : List Char) : List Char :=
  s.take MAX_NAME_LENGTH ++ List.replicate (MAX_NAME_LENGTH - s.length) NULC

/-- Reading a name buffer back as a C string
(`std::string(rec->name)` / `name == rec->name`): the characters
before the first NUL. -/
def nameLoad (b : List Char) : List Char :=
  b.takeWhile (fun c => c ≠ NULC)

/-- `DataType` from `catalog_defs.h` (a `uint8_t` enum). -/
inductive CDataType where
  | integer | double | varchar | boolean | date | timestamp
deriving Repr, DecidableEq

/-- `SysTablesRecord` as a value (`name` is the 32-byte buffer). -/
structure SysTablesRec where
  oid : ℕ
  name : List Char
  first_page_id : ℤ
  column_count : ℕ
deriving Repr, DecidableEq

/-- `SysColumnsRecord` as a value (`name` is the 32-byte buffer). -/
structure SysColumnsRec where
  table_oid : ℕ
  name : List Char
  type : CDataType
  length : ℕ
  offset : ℕ
deriving Repr, DecidableEq

/-- `sizeof(SysTablesRecord)` under the layout actually compiled. -/
def SYS_TABLES_SIZE : ℕ := (cppLayout sysTablesFields).2

/-- `sizeof(SysColumnsRecord)` under the layout actually compiled. -/
def SYS_COLUMNS_SIZE : ℕ := (cppLayout sysColumnsFields).2

/-- `Column` (`column.h`): name, type, and the `uint16_t` length and
offset.  The catalog only ever copies the two numeric fields, so they
are kept as plain naturals. -/
structure CColumn where
  name : List Char
  type : CDataType
  length : ℕ
  offset : ℕ
deriving Repr, DecidableEq

/-- The slot scan both catalog readers perform: visit the slots in
slot order, `get_tuple` each, keep the non-tombstoned payloads. -/
def SPage.scanRecords {α : Type} (p : SPage α) : List α :=
  (p.slots.filter (fun s => s.length ≠ 0)).map MSlot.val

/-- Catalog state: the `sys_tables` data page, the `sys_columns` data
page (see the section comment) and the `static_oid` counter of
`create_table`. -/
structure CatState where
  stPage : SPage SysTablesRec
  scPage : SPage SysColumnsRec
  nextOid : ℕ
deriving Repr, DecidableEq

/-- `TableMetadata` returned by `get_table`. -/
structure TableMetadata where
  oid : ℕ
  name : List Char
  first_page_id : ℤ
  schema : List CColumn
deriving Repr, DecidableEq

/-- `CatalogManager::get_table(name)`: scan `sys_tables` in slot order
for the first record whose stored name reads back equal to `name`; on
a hit, scan `sys_columns` in slot order and keep — in scan order — the
columns whose `table_oid` equals the found record's oid. -/
def catGetTable (st : CatState) (name : List Char) : Option TableMetadata :=
  match st.stPage.scanRecords.find? (fun r => name == nameLoad r.name) with
  | none => none
  | some rec =>
      some ⟨rec.oid, nameLoad rec.name, rec.first_page_id,
            (st.scPage.scanRecords.filter (fun c => c.table_oid == rec.oid)).map
              (fun c => ⟨nameLoad c.name, c.type, c.length, c.offset⟩)⟩

/-- `CatalogManager::insert_tuple`: read the page, `insert_tuple`,
write it back; the slot id result is ignored by every caller. -/
def catPut {α : Type} (p : SPage α) (v : α) (sz : ℕ) : SPage α :=
  (p.insertTuple v sz).2

/-- The `SysColumnsRecord` that `create_table` builds for one schema
column (`strncpy` of the name, direct copies of the other fields). -/
def colRecOf (oid : ℕ) (c : CColumn) : SysColumnsRec :=
  ⟨oid, nameStore c.name, c.type, c.length, c.offset⟩

/-- `CatalogManager::create_table(name, schema)`.  The page id
returned by `iam_manager_.create_iam_chain()` is passed in as
`new_diam`; the function fails when it is `INVALID_PAGE_ID` (note
`static_oid++` has already happened by then), otherwise it inserts the
`sys_tables` row and then one `sys_columns` row per schema column, in
schema order, ignoring the `insert_tuple` results.  `column_count` is
a `uint16_t`. -/
def catCreateTable (st : CatState) (name : List Char) (schema : List CColumn)
    (new_diam : ℤ) : Bool × CatState :=
  match catGetTable st name with
  | some _ => (false, st)
  | none =>
      let oid := st.nextOid
      if new_diam = INVALID_PAGE_ID then
        (false, ⟨st.stPage, st.scPage, oid + 1⟩)
      else
        let stPage2 := catPut st.stPage
          ⟨oid, nameStore name, new_diam, schema.length % 2 ^ 16⟩ SYS_TABLES_SIZE
        let scPage2 := schema.foldl
          (fun pg c => catPut pg (colRecOf oid c) SYS_COLUMNS_SIZE)
          st.scPage
        (true, ⟨stPage2, scPage2, oid + 1⟩)

/-- The two rows `bootstrap()` inserts into `sys_tables`:
(oid 1, "sys_tables", IAM page 2, 4 columns) and
(oid 2, "sys_columns", IAM page 3, 5 columns). -/
def bootTables : List SysTablesRec :=
  [⟨1, nameStore ("sys_tables".toList), 2, 4⟩,
   ⟨2, nameStore ("sys_columns".toList), 3, 5⟩]

/-- The nine rows `bootstrap()` inserts into `sys_columns` (offsets
are `offsetof` under the actual, unpacked layout). -/
def bootColumns : List SysColumnsRec :=
  [⟨1, nameStore ("oid".toList), .integer, 4, 0⟩,
   ⟨1, nameStore ("name".toList), .varchar, 32, 4⟩,
   ⟨1, nameStore ("first_page_id".toList), .integer, 4, 36⟩,
   ⟨1, nameStore ("column_count".toList), .integer, 2, 40⟩,
   ⟨2, nameStore ("table_oid".toList), .integer, 4, 0⟩,
   ⟨2, nameStore ("name".toList), .varchar, 32, 4⟩,
   ⟨2, nameStore ("type".toList), .integer, 1, 36⟩,
   ⟨2, nameStore ("length".toList), .integer, 2, 38⟩,
   ⟨2, nameStore ("offset".toList), .integer, 2, 40⟩]

/-- `bootstrap()`: both rows/column lists inserted into fresh slotted
pages; `static_oid` starts at 100. -/
def bootstrapState : CatState :=
  ⟨bootTables.foldl (fun p r => catPut p r SYS_TABLES_SIZE)
     (SPage.init SysTablesRec),
   bootColumns.foldl (fun p r => catPut p r SYS_COLUMNS_SIZE)
     (SPage.init SysColumnsRec),
   100⟩

/-- The spec's example schema for `users`: `id INTEGER` (length 4,
offset 0) and `username VARCHAR(32)` (offset 4). -/
def usersSchema : List CColumn :=
  [⟨"id".toList, .integer, 4, 0⟩, ⟨"username".toList, .varchar, 32, 4⟩]


/-- Every tombstone index returned by the scan points at an in-range
slot whose `length` is 0. -/
theorem findTombAux_spec {α : Type} :
    ∀ (l : List (MSlot α)) (k i : ℕ), findTombAux l k = some i →
      ∃ j s, i = k + j ∧ l[j]? = some s ∧ s.length = 0 := by
  intro l
  induction l with
  | nil => intro k i h; simp [findTombAux] at h
  | cons s rest ih =>
    intro k i h
    by_cases hs : s.length = 0
    · refine ⟨0, s, ?_, by simp, hs⟩
      simp [findTombAux, hs] at h
      omega
    · simp only [findTombAux, hs, if_neg] at h
      obtain ⟨j, s', hj, hget, hlen⟩ := ih (k + 1) i h
      exact ⟨j + 1, s', by omega, by simpa using hget, hlen⟩

/-- C9: the claim asserts that `SysTablesRecord` occupies exactly 42
bytes and `SysColumnsRecord` exactly 41 bytes with no implicit padding
(`length` at offset 37, `offset` at offset 39).  The structs in
`catalog_defs.h` are *not* wrapped in `#pragma pack(1)`, so the default
C++ layout applies: both records occupy 44 bytes, `SysColumnsRecord`
has a padding byte before `length` (which lands at offset 38, with
`offset` at 40), and both have tail padding.  The packed layout — which
is what the claim and the spec describe — would indeed give 42/41 bytes
and the claimed offsets.  This theorem evaluates both layouts. -/
theorem sysRecords_layout_eval :
    cppLayout sysTablesFields = ([0, 4, 36, 40], 44) ∧
    cppLayout sysColumnsFields = ([0, 4, 36, 38, 40], 44) ∧
    packedLayout sysTablesFields = ([0, 4, 36, 40], 42) ∧
    packedLayout sysColumnsFields = ([0, 4, 36, 37, 39], 41) ∧
    (cppLayout sysTablesFields).2 ≠ 42 ∧
    (cppLayout sysColumnsFields).2 ≠ 41 := by
  decide

/-- C5: the claim asserts that after *any* sequence of inserts and
deletes — explicitly including deleting a slot that is already
tombstoned — `tuple_count` equals the number of slots with nonzero
length.  `delete_tuple` only bounds-checks the slot id and decrements
the `uint16_t` `tuple_count` unconditionally, so deleting slot 0 twice
after a single insert leaves `tuple_count = 65535` (underflow) while
no live slot exists.  This theorem evaluates the code on that failing
input (the `free_space_pointer` bound, by contrast, still holds
there). -/
theorem slotted_tupleCount_underflow_eval :
    (SPage.applyOps [SPOp.ins () 1, SPOp.del 0, SPOp.del 0]).tuple_count
        = 65535 ∧
    (SPage.applyOps [SPOp.ins () 1, SPOp.del 0, SPOp.del 0]).liveCount
        = 0 ∧
    (SPage.applyOps [SPOp.ins () 1, SPOp.del 0, SPOp.del 0]).numSlots
        = 1 ∧
    SLOTTED_HEADER_SIZE
        + (SPage.applyOps [SPOp.ins () 1, SPOp.del 0, SPOp.del 0]).numSlots
            * SLOT_SIZE
      ≤ (SPage.applyOps
            [SPOp.ins () 1, SPOp.del 0, SPOp.del 0]).free_space_pointer := by
  decide

/-- C10: inserting a tuple of size 0 into a page with at least
`sizeof(Slot)` bytes of free space succeeds (the returned slot id is
non-negative), increments `tuple_count`, and creates a slot of length
0 which `get_tuple` reports as deleted (`null`); a later insert reuses
that slot, as the concrete run in the second conjunct shows (the
zero-size insert into a fresh page yields slot 0, `get_tuple(0)` is
`null`, and the next insert of a 2-byte tuple returns slot 0 again). -/
theorem insertTuple_zero_size (p : SPage Unit)
    (h : SLOT_SIZE ≤ p.freeSpace) :
    0 ≤ (p.insertTuple () 0).1 ∧
    (p.insertTuple () 0).2.tuple_count = (p.tuple_count + 1) % 2 ^ 16 ∧
    (p.insertTuple () 0).2.getTuple (p.insertTuple () 0).1.toNat = none ∧
    ((SPage.init Unit).insertTuple () 0).1 = 0 ∧
    (((SPage.init Unit).insertTuple () 0).2.insertTuple () 2).1 = 0 ∧
    ((((SPage.init Unit).insertTuple () 0).2.insertTuple () 2).2.getTuple 0)
        = some ((), 2) := by
  refine ⟨?_, ?_, ?_, by decide, by decide, by decide⟩ <;>
  · rcases hf : p.firstFree with _ | i
    · have hlt : ¬ p.freeSpace < 0 + SLOT_SIZE := by omega
      simp only [SPage.insertTuple, hf, hlt, if_neg, Int.ofNat_eq_natCast]
      try simp [SPage.getTuple, List.getElem?_append_right, SPage.numSlots]
      try positivity
    · have hlt : ¬ p.freeSpace < 0 := by omega
      obtain ⟨j, s, hij, hget, hlen⟩ := findTombAux_spec p.slots 0 i hf
      have hjlen : j < p.slots.length := by
        by_contra hc
        push_neg at hc
        rw [List.getElem?_eq_none hc] at hget
        cases hget
      simp only [SPage.insertTuple, hf, hlt, if_neg]
      try simp [SPage.getTuple]
      try rw [List.getElem?_set_self (by omega)]
      try simp
      try positivity

/-- Witness for `insertTuple_zero_size` at the fresh page. -/
theorem insertTuple_zero_size_witness :
    SLOT_SIZE ≤ (SPage.init Unit).freeSpace ∧
    (0 ≤ ((SPage.init Unit).insertTuple () 0).1 ∧
     ((SPage.init Unit).insertTuple () 0).2.tuple_count
        = ((SPage.init Unit).tuple_count + 1) % 2 ^ 16 ∧
     ((SPage.init Unit).insertTuple () 0).2.getTuple
        ((SPage.init Unit).insertTuple () 0).1.toNat = none ∧
     ((SPage.init Unit).insertTuple () 0).1 = 0 ∧
     (((SPage.init Unit).insertTuple () 0).2.insertTuple () 2).1 = 0 ∧
     ((((SPage.init Unit).insertTuple () 0).2.insertTuple
          () 2).2.getTuple 0) = some ((), 2)) :=
  ⟨by decide, insertTuple_zero_size (SPage.init Unit) (by decide)⟩

theorem bmIsSet_eq_getElem (bits : List Bool) (i : ℕ) :
    bmIsSet bits i = (bits[i]?).getD false := by
  simp [bmIsSet, List.getD]

/-- A set bit stays set after setting any other bit. -/
theorem bmIsSet_bmSet_mono {l : List Bool} {j : ℕ} (i : ℕ)
    (h : bmIsSet l j = true) : bmIsSet (bmSet l i) j = true := by
  rw [bmIsSet_eq_getElem] at h ⊢
  have hj : j < l.length := by
    by_contra hc
    push_neg at hc
    rw [List.getElem?_eq_none hc] at h
    simp at h
  rcases eq_or_ne i j with rfl | hne
  · rw [bmSet, List.getElem?_set_self hj]
    rfl
  · rw [bmSet, List.getElem?_set_ne hne]
    exact h

/-- Setting an in-range bit makes it set. -/
theorem bmIsSet_bmSet_self {l : List Bool} {i : ℕ} (h : i < l.length) :
    bmIsSet (bmSet l i) i = true := by
  rw [bmIsSet_eq_getElem, bmSet, List.getElem?_set_self h]
  rfl

/-- Clearing an in-range bit makes it clear. -/
theorem bmIsSet_bmClear_self {l : List Bool} {i : ℕ} (h : i < l.length) :
    bmIsSet (bmClear l i) i = false := by
  rw [bmIsSet_eq_getElem, bmClear, List.getElem?_set_self h]
  rfl

theorem bmSet_length (l : List Bool) (i : ℕ) :
    (bmSet l i).length = l.length := by
  simp [bmSet]

/-- The first-clear scan returns an in-range index of a clear bit. -/
theorem findFirstClear_spec :
    ∀ (l : List Bool) (i : ℕ), findFirstClear l = some i →
      l[i]? = some false := by
  intro l
  induction l with
  | nil => intro i h; simp [findFirstClear] at h
  | cons b rest ih =>
    intro i h
    cases b with
    | false =>
        simp [findFirstClear] at h
        subst h
        simp
    | true =>
        rcases hrec : findFirstClear rest with _ | j
        · simp [findFirstClear, hrec] at h
        · simp [findFirstClear, hrec] at h
          subst h
          simpa using ih j hrec

/-- A fresh (all-clear) bitmap's first clear bit is bit 0. -/
theorem findFirstClear_replicate {n : ℕ} (h : 0 < n) :
    findFirstClear (List.replicate n false) = some 0 := by
  cases n with
  | zero => omega
  | succ m => simp [findFirstClear, List.replicate]

/-- After self-marking bit 0, the first clear bit is bit 1. -/
theorem findFirstClear_selfMarked {n : ℕ} (h : 2 ≤ n) :
    findFirstClear (bmSet (List.replicate n false) 0) = some 1 := by
  cases n with
  | zero => omega
  | succ m =>
    cases m with
    | zero => omega
    | succ m' =>
      simp [bmSet, findFirstClear, List.replicate,
        findFirstClear_replicate (Nat.succ_pos m')]

/-- Replacing one chain page by a page with at least the same set bits
preserves every allocated extent. -/
theorem extAlloc_mono_set {gams : List GamPage} {idx : ℕ}
    {g g' : GamPage} (hg : gams[idx]? = some g)
    (hbits : ∀ j, bmIsSet g.bits j = true → bmIsSet g'.bits j = true)
    {e : ℕ} (h : extAlloc gams e = true) :
    extAlloc (gams.set idx g') e = true := by
  unfold extAlloc at h ⊢
  rcases eq_or_ne idx (e / MAX_BITS) with heq | hne
  · rw [← heq] at h ⊢
    rw [hg] at h
    have hidx : idx < gams.length := by
      by_contra hc
      push_neg at hc
      rw [List.getElem?_eq_none hc] at hg
      cases hg
    rw [List.getElem?_set_self hidx]
    exact hbits _ h
  · rw [List.getElem?_set_ne hne]
    exact h

/-- Appending chain pages preserves every allocated extent. -/
theorem extAlloc_mono_append {gams : List GamPage} (tl : List GamPage)
    {e : ℕ} (h : extAlloc gams e = true) :
    extAlloc (gams ++ tl) e = true := by
  unfold extAlloc at h ⊢
  rcases hg : gams[e / MAX_BITS]? with _ | g
  · rw [hg] at h
    cases h
  · rw [hg] at h
    have hidx : e / MAX_BITS < gams.length := by
      by_contra hc
      push_neg at hc
      rw [List.getElem?_eq_none hc] at hg
      cases hg
    rw [List.getElem?_append, if_pos hidx, hg]
    exact h

/-- Setting a concatenated list's last element. -/
theorem set_concat_length {α : Type} (l : List α) (a b : α) :
    (l ++ [a]).set l.length b = l ++ [b] := by
  induction l with
  | nil => simp
  | cons x xs ih => simp [ih]

theorem MAX_BITS_ge_two : 2 ≤ MAX_BITS := by norm_num [MAX_BITS]

/-- Division/modulus of a bit position inside chain page `idx`. -/
theorem extentIndex_div_mod {idx i : ℕ} (h : i < MAX_BITS) :
    (idx * MAX_BITS + i) / MAX_BITS = idx ∧
    (idx * MAX_BITS + i) % MAX_BITS = i := by
  constructor <;>
  · simp only [MAX_BITS] at *
    omega

theorem getElem?_some_lt {α : Type} {l : List α} {i : ℕ} {a : α}
    (h : l[i]? = some a) : i < l.length := by
  by_contra hc
  push_neg at hc
  rw [List.getElem?_eq_none hc] at h
  cases h

theorem mem_of_getElem_some {α : Type} {l : List α} {i : ℕ} {a : α}
    (h : l[i]? = some a) : a ∈ l := by
  have hi := getElem?_some_lt h
  rw [List.getElem?_eq_getElem hi] at h
  rcases h with ⟨⟩
  exact List.getElem_mem hi

/-- Unfolding of one loop round that finds a clear bit `i` in page
`idx`: set the bit and return `EXTENT_SIZE * (idx*MAX_BITS + i)`. -/
theorem allocFrom_found {s : EmState} {idx : ℕ} {g : GamPage} {i f : ℕ}
    (hg : s.gams[idx]? = some g)
    (hffc : findFirstClear g.bits = some i) :
    allocFrom s idx (f + 1) =
      (EXTENT_SIZE * (idx * MAX_BITS + i),
       { s with gams := s.gams.set idx { g with bits := bmSet g.bits i } }) := by
  rw [allocFrom, hg]
  simp only [hffc]

/-- Unfolding of one loop round on a full page with a successor. -/
theorem allocFrom_advance {s : EmState} {idx : ℕ} {g : GamPage} {f : ℕ}
    (hg : s.gams[idx]? = some g)
    (hffc : findFirstClear g.bits = none)
    (hnext : idx + 1 < s.gams.length) :
    allocFrom s idx (f + 1) =
      allocFrom { s with cursor := idx + 1 } (idx + 1) f := by
  rw [allocFrom, hg]
  simp only [hffc, if_pos hnext]

/-- Unfolding of one loop round at the chain end when the new GAM can
be packed into the system extent. -/
theorem allocFrom_createPacked {s : EmState} {idx : ℕ} {g : GamPage}
    {f : ℕ} (hg : s.gams[idx]? = some g)
    (hffc : findFirstClear g.bits = none)
    (hnext : ¬ idx + 1 < s.gams.length)
    (hcand : gamCandidate g.id < EXTENT_SIZE) :
    allocFrom s idx (f + 1) =
      allocFrom
        { s with gams := s.gams
            ++ [⟨gamCandidate g.id, List.replicate MAX_BITS false⟩] }
        (idx + 1) f := by
  rw [allocFrom, hg]
  simp only [hffc, if_neg hnext, if_pos hcand]

/-- Unfolding of one loop round at the chain end when the file must be
extended for the new GAM. -/
theorem allocFrom_createExtend {s : EmState} {idx : ℕ} {g : GamPage}
    {f : ℕ} (hg : s.gams[idx]? = some g)
    (hffc : findFirstClear g.bits = none)
    (hnext : ¬ idx + 1 < s.gams.length)
    (hcand : ¬ gamCandidate g.id < EXTENT_SIZE) :
    allocFrom s idx (f + 1) =
      allocFrom
        { s with
            gams := s.gams
              ++ [⟨s.total_pages, bmSet (List.replicate MAX_BITS false) 0⟩],
            total_pages := s.total_pages + EXTENT_SIZE }
        (idx + 1) f := by
  rw [allocFrom, hg]
  simp only [hffc, if_neg hnext, if_neg hcand]

/-- Effect of setting the clear bit `i` of chain page `idx`: the global
extent `idx*MAX_BITS + i` was free and becomes allocated, other
allocated extents are preserved, and well-formedness is kept. -/
theorem foundStep_spec {s : EmState} {idx : ℕ} {g : GamPage} {i : ℕ}
    (hlen : ∀ x ∈ s.gams, x.bits.length = MAX_BITS)
    (hcur : s.cursor < s.gams.length)
    (hg : s.gams[idx]? = some g)
    (hffc : findFirstClear g.bits = some i) :
    extAlloc s.gams (idx * MAX_BITS + i) = false ∧
    extAlloc (s.gams.set idx { g with bits := bmSet g.bits i })
        (idx * MAX_BITS + i) = true ∧
    (∀ x, extAlloc s.gams x = true →
       extAlloc (s.gams.set idx { g with bits := bmSet g.bits i }) x
         = true) ∧
    (∀ x ∈ s.gams.set idx { g with bits := bmSet g.bits i },
       x.bits.length = MAX_BITS) ∧
    s.cursor < (s.gams.set idx { g with bits := bmSet g.bits i }).length := by
  have hidx : idx < s.gams.length := getElem?_some_lt hg
  have hgetb : g.bits[i]? = some false := findFirstClear_spec _ _ hffc
  have hilen : i < g.bits.length := getElem?_some_lt hgetb
  have hglen : g.bits.length = MAX_BITS :=
    hlen g (mem_of_getElem_some hg)
  obtain ⟨hdiv, hmod⟩ :=
    @extentIndex_div_mod idx i (by omega)
  refine ⟨?_, ?_, ?_, ?_, ?_⟩
  · unfold extAlloc
    rw [hdiv, hg, hmod]
    have hb : bmIsSet g.bits i = false := by
      rw [bmIsSet_eq_getElem, hgetb]
      rfl
    exact hb
  · unfold extAlloc
    rw [hdiv, hmod, List.getElem?_set_self hidx]
    exact bmIsSet_bmSet_self hilen
  · intro x hx
    exact extAlloc_mono_set hg (fun j hj => bmIsSet_bmSet_mono i hj) hx
  · intro x hx
    rcases List.mem_or_eq_of_mem_set hx with hx | rfl
    · exact hlen x hx
    · simp [bmSet_length, hglen]
  · rw [List.length_set]
    omega

/-- Combined unfolding + effect of a loop round that finds a clear bit. -/
theorem allocFound_spec {s : EmState} {idx : ℕ} {g : GamPage} {i : ℕ}
    (f : ℕ) (hlen : ∀ x ∈ s.gams, x.bits.length = MAX_BITS)
    (hcur : s.cursor < s.gams.length)
    (hg : s.gams[idx]? = some g)
    (hffc : findFirstClear g.bits = some i) :
    ∃ e s2,
      allocFrom s idx (f + 1) = (EXTENT_SIZE * e, s2) ∧
      e / MAX_BITS = idx ∧
      extAlloc s.gams e = false ∧
      extAlloc s2.gams e = true ∧
      (∀ x, extAlloc s.gams x = true → extAlloc s2.gams x = true) ∧
      (∀ x ∈ s2.gams, x.bits.length = MAX_BITS) ∧
      s2.cursor < s2.gams.length := by
  obtain ⟨hfresh, hset, hmono, hlen2, hcur2⟩ :=
    foundStep_spec hlen hcur hg hffc
  have hilen : i < g.bits.length :=
    getElem?_some_lt (findFirstClear_spec _ _ hffc)
  have hglen : g.bits.length = MAX_BITS := hlen g (mem_of_getElem_some hg)
  obtain ⟨hdiv, _⟩ := @extentIndex_div_mod idx i (by omega)
  exact ⟨idx * MAX_BITS + i, _, allocFrom_found hg hffc, hdiv, hfresh,
    hset, hmono, hlen2, hcur2⟩

/-- Core correctness of the `allocate_extent` loop: with enough fuel it
returns `EXTENT_SIZE * e` for a global extent index `e` that was free
and is now marked, only ever turns clear bits into set bits, and
preserves chain well-formedness. -/
theorem allocFrom_spec :
    ∀ (fuel : ℕ) (s : EmState) (idx : ℕ),
      (∀ g ∈ s.gams, g.bits.length = MAX_BITS) →
      idx < s.gams.length →
      s.cursor < s.gams.length →
      s.gams.length - idx + 1 ≤ fuel →
      ∃ e s2,
        allocFrom s idx fuel = (EXTENT_SIZE * e, s2) ∧
        extAlloc s.gams e = false ∧
        extAlloc s2.gams e = true ∧
        (∀ x, extAlloc s.gams x = true → extAlloc s2.gams x = true) ∧
        (∀ g ∈ s2.gams, g.bits.length = MAX_BITS) ∧
        s2.cursor < s2.gams.length := by
  intro fuel
  induction fuel with
  | zero =>
      intro s idx _ hidx _ hf
      omega
  | succ f ih =>
    intro s idx hlen hidx hcur hf
    obtain ⟨g, hg⟩ : ∃ g, s.gams[idx]? = some g := by
      rw [List.getElem?_eq_getElem hidx]
      exact ⟨_, rfl⟩
    rcases hffc : findFirstClear g.bits with _ | i
    · -- the page is full
      by_cases hnext : idx + 1 < s.gams.length
      · -- advance to the successor page
        have hrec := @allocFrom_advance _ _ _ f hg hffc hnext
        obtain ⟨e, s2, heq, hfresh, hset, hmono, hlen2, hcur2⟩ :=
          ih { s with cursor := idx + 1 } (idx + 1) hlen hnext hnext
            (by show s.gams.length - (idx + 1) + 1 ≤ f; omega)
        exact ⟨e, s2, by rw [hrec]; exact heq, hfresh, hset, hmono,
          hlen2, hcur2⟩
      · -- end of the chain: create a new GAM page
        have hlast : idx + 1 = s.gams.length := by omega
        have hfpos : f ≠ 0 := by omega
        obtain ⟨f2, rfl⟩ := Nat.exists_eq_succ_of_ne_zero hfpos
        by_cases hcand : gamCandidate g.id < EXTENT_SIZE
        · -- packed into the system extent: new all-clear bitmap
          have hrec := @allocFrom_createPacked _ _ _ (f2 + 1) hg hffc
            hnext hcand
          set s3 : EmState :=
            { s with gams := s.gams
                ++ [⟨gamCandidate g.id, List.replicate MAX_BITS false⟩] }
            with hs3
          have hg3 : s3.gams[idx + 1]?
              = some ⟨gamCandidate g.id, List.replicate MAX_BITS false⟩ := by
            show (s.gams ++ [_])[idx + 1]? = _
            rw [hlast]
            exact List.getElem?_concat_length _ _
          have hffc3 :
              findFirstClear
                (GamPage.bits
                  ⟨gamCandidate g.id, List.replicate MAX_BITS false⟩)
                = some 0 :=
            findFirstClear_replicate (by have := MAX_BITS_ge_two; omega)
          have hlen3 : ∀ x ∈ s3.gams, x.bits.length = MAX_BITS := by
            intro x hx
            rcases List.mem_append.mp hx with hx | hx
            · exact hlen x hx
            · rcases List.mem_singleton.mp hx with rfl
              simp
          have hcur3 : s3.cursor < s3.gams.length := by
            show s.cursor < (s.gams ++ [_]).length
            rw [List.length_append]
            omega
          obtain ⟨e, s2, heq3, hdiv3, hfresh3, hset3, hmono3, hlen2,
            hcur2⟩ := allocFound_spec f2 hlen3 hcur3 hg3 hffc3
          refine ⟨e, s2, by rw [hrec]; exact heq3, ?_, hset3, ?_,
            hlen2, hcur2⟩
          · unfold extAlloc
            rw [hdiv3, hlast, List.getElem?_eq_none (le_refl _)]
          · intro x hx
            exact hmono3 x (extAlloc_mono_append _ hx)
        · -- extend the file: the new GAM self-marks bit 0
          have hrec := @allocFrom_createExtend _ _ _ (f2 + 1) hg hffc
            hnext hcand
          set s3 : EmState :=
            { s with
                gams := s.gams
                  ++ [⟨s.total_pages,
                       bmSet (List.replicate MAX_BITS false) 0⟩],
                total_pages := s.total_pages + EXTENT_SIZE }
            with hs3
          have hg3 : s3.gams[idx + 1]?
              = some ⟨s.total_pages,
                      bmSet (List.replicate MAX_BITS false) 0⟩ := by
            show (s.gams ++ [_])[idx + 1]? = _
            rw [hlast]
            exact List.getElem?_concat_length _ _
          have hffc3 :
              findFirstClear
                (GamPage.bits
                  ⟨s.total_pages,
                   bmSet (List.replicate MAX_BITS false) 0⟩)
                = some 1 :=
            findFirstClear_selfMarked MAX_BITS_ge_two
          have hlen3 : ∀ x ∈ s3.gams, x.bits.length = MAX_BITS := by
            intro x hx
            rcases List.mem_append.mp hx with hx | hx
            · exact hlen x hx
            · rcases List.mem_singleton.mp hx with rfl
              simp [bmSet_length]
          have hcur3 : s3.cursor < s3.gams.length := by
            show s.cursor < (s.gams ++ [_]).length
            rw [List.length_append]
            omega
          obtain ⟨e, s2, heq3, hdiv3, hfresh3, hset3, hmono3, hlen2,
            hcur2⟩ := allocFound_spec f2 hlen3 hcur3 hg3 hffc3
          refine ⟨e, s2, by rw [hrec]; exact heq3, ?_, hset3, ?_,
            hlen2, hcur2⟩
          · unfold extAlloc
            rw [hdiv3, hlast, List.getElem?_eq_none (le_refl _)]
          · intro x hx
            exact hmono3 x (extAlloc_mono_append _ hx)
    · -- a clear bit exists in this page
      obtain ⟨e, s2, heq, _, hfresh, hset, hmono, hlen2, hcur2⟩ :=
        allocFound_spec f hlen hcur hg hffc
      exact ⟨e, s2, heq, hfresh, hset, hmono, hlen2, hcur2⟩

/-- `allocate_extent` on a well-formed state: a fresh aligned extent is
returned and the state stays well-formed. -/
theorem emAlloc_spec (s : EmState)
    (hlen : ∀ g ∈ s.gams, g.bits.length = MAX_BITS)
    (hcur : s.cursor < s.gams.length) :
    ∃ e s2,
      emAlloc s = (EXTENT_SIZE * e, s2) ∧
      extAlloc s.gams e = false ∧
      extAlloc s2.gams e = true ∧
      (∀ x, extAlloc s.gams x = true → extAlloc s2.gams x = true) ∧
      (∀ g ∈ s2.gams, g.bits.length = MAX_BITS) ∧
      s2.cursor < s2.gams.length := by
  exact allocFrom_spec (s.gams.length - s.cursor + 2) s s.cursor hlen
    hcur hcur (by omega)

theorem emInit_good : EmGood emInit := by
  refine ⟨?_, ?_, ?_⟩
  · intro g hg
    rcases List.mem_singleton.mp hg with rfl
    simp [bmSet_length]
  · simp [emInit]
  · unfold extAlloc
    rw [Nat.zero_div, Nat.zero_mod]
    show bmIsSet (bmSet (List.replicate MAX_BITS false) 0) 0 = true
    refine bmIsSet_bmSet_self ?_
    rw [List.length_replicate]
    have := MAX_BITS_ge_two
    omega

/-- Run invariant: after `n` allocations from bootstrap the state is
well-formed, every returned page id is `EXTENT_SIZE` times a nonzero
extent index that is marked allocated, and the returned ids are
distinct. -/
theorem emRun_spec (n : ℕ) :
    EmGood (emRun n).1 ∧
    (∀ p ∈ (emRun n).2, ∃ e, p = EXTENT_SIZE * e ∧ e ≠ 0 ∧
       extAlloc (emRun n).1.gams e = true) ∧
    (emRun n).2.Nodup := by
  induction n with
  | zero =>
      refine ⟨emInit_good, ?_, ?_⟩
      · intro p hp
        simp [emRun] at hp
      · simp [emRun]
  | succ m ih =>
    obtain ⟨⟨hlen, hcur, hbit0⟩, hmem, hnodup⟩ := ih
    rcases hm : emRun m with ⟨s, rs⟩
    rw [hm] at hlen hcur hbit0 hmem hnodup
    obtain ⟨e, s2, heq, hfresh, hset, hmono, hlen2, hcur2⟩ :=
      emAlloc_spec s hlen hcur
    have hrun : emRun (m + 1) = (s2, rs ++ [EXTENT_SIZE * e]) := by
      rw [emRun, hm]
      show (match emAlloc s with
            | (p, t) => (t, rs ++ [p])) = (s2, rs ++ [EXTENT_SIZE * e])
      rw [heq]
    rw [hrun]
    have hne : e ≠ 0 := by
      intro h0
      rw [h0] at hfresh
      rw [hbit0] at hfresh
      cases hfresh
    refine ⟨⟨hlen2, hcur2, hmono 0 hbit0⟩, ?_, ?_⟩
    · intro p hp
      rcases List.mem_append.mp hp with hp | hp
      · obtain ⟨x, rfl, hxne, hx⟩ := hmem p hp
        exact ⟨x, rfl, hxne, hmono x hx⟩
      · rcases List.mem_singleton.mp hp with rfl
        exact ⟨e, rfl, hne, hset⟩
    · refine List.Nodup.append hnodup (List.nodup_singleton _) ?_
      intro p hp hp2
      rcases List.mem_singleton.mp hp2 with rfl
      obtain ⟨x, hx, _, hxset⟩ := hmem _ hp
      have hxe : x = e := by
        have h8 : (0 : ℕ) < EXTENT_SIZE := by norm_num [EXTENT_SIZE]
        exact Nat.eq_of_mul_eq_mul_left h8
          (by rw [← hx])
      rw [hxe] at hxset
      rw [hxset] at hfresh
      cases hfresh

/-- C3: for every number `n` of successful `allocate_extent` calls on a
freshly bootstrapped database with no intervening
`deallocate_extent`, the returned start page ids are pairwise distinct,
each is congruent to 0 modulo `EXTENT_SIZE`, and each is at least
`EXTENT_SIZE` (the system extent is never returned). -/
theorem allocate_run_distinct_aligned (n : ℕ) :
    (emRun n).2.Nodup ∧
    ∀ p ∈ (emRun n).2, p % EXTENT_SIZE = 0 ∧ EXTENT_SIZE ≤ p := by
  obtain ⟨_, hmem, hnodup⟩ := emRun_spec n
  refine ⟨hnodup, ?_⟩
  intro p hp
  obtain ⟨e, rfl, hne, _⟩ := hmem p hp
  constructor
  · exact Nat.mul_mod_right _ _
  · have h1 : 1 ≤ e := by omega
    calc EXTENT_SIZE = EXTENT_SIZE * 1 := by ring
    _ ≤ EXTENT_SIZE * e := Nat.mul_le_mul_left _ h1

/-- Witness for `allocate_run_distinct_aligned`: two allocations on a
fresh database return pages 8 and 16; page 16 is in the list, aligned
and beyond the system extent. -/
theorem allocate_run_distinct_aligned_witness :
    (emRun 2).2.Nodup ∧
    (16 ∈ (emRun 2).2 ∧ 16 % EXTENT_SIZE = 0 ∧ EXTENT_SIZE ≤ 16) :=
  ⟨(allocate_run_distinct_aligned 2).1,
   by decide,
   (allocate_run_distinct_aligned 2).2 16 (by decide)⟩

/-- `deallocate_extent` depends on its argument only through the
computed extent index. -/
theorem emDealloc_congr (s : EmState) {x y : ℤ}
    (h : extentIndexOf x = extentIndexOf y) :
    emDealloc s x = emDealloc s y := by
  unfold emDealloc
  rw [h]

/-- C1 (counterexample): the claim says
`deallocate_extent(INVALID_PAGE_ID)` leaves all on-disk state
unchanged.  On the freshly bootstrapped state it does not: C++
computes `extent_index = (-1) / 8 = 0`, so the call clears GAM bit 0 —
the system extent's allocation bit — and writes the page back. -/
theorem dealloc_invalid_changes_state :
    emDealloc emInit INVALID_PAGE_ID ≠ emInit := by
  decide

/-- C1 (amended): `deallocate_extent` performs no validation of its
argument.  `INVALID_PAGE_ID` (−1) truncates to extent index 0 and the
call behaves exactly like deallocating the system extent; an unaligned
page id behaves exactly like deallocating the start of the extent that
contains it; and whenever the computed extent's GAM page exists in the
chain, the call clears that extent's allocation bit (so none of these
calls is a no-op on an allocated extent — they are silent, not
state-preserving). -/
theorem dealloc_no_validation (s : EmState) (x : ℤ) (hx : 0 ≤ x)
    (hlen : ∀ g ∈ s.gams, g.bits.length = MAX_BITS) :
    emDealloc s INVALID_PAGE_ID = emDealloc s 0 ∧
    emDealloc s x
      = emDealloc s ((EXTENT_SIZE : ℤ) * (x / (EXTENT_SIZE : ℤ))) ∧
    (∀ g, s.gams[extentIndexOf x / MAX_BITS]? = some g →
       extAlloc (emDealloc s x).gams (extentIndexOf x) = false) := by
  refine ⟨emDealloc_congr s (by decide), ?_, ?_⟩
  · refine emDealloc_congr s ?_
    unfold extentIndexOf
    have h1 : x.tdiv (EXTENT_SIZE : ℤ) = x / (EXTENT_SIZE : ℤ) :=
      Int.tdiv_eq_ediv hx (by norm_num [EXTENT_SIZE])
    have hq : 0 ≤ x / (EXTENT_SIZE : ℤ) :=
      Int.ediv_nonneg hx (by norm_num [EXTENT_SIZE])
    have h2 : ((EXTENT_SIZE : ℤ) * (x / (EXTENT_SIZE : ℤ))).tdiv
        (EXTENT_SIZE : ℤ) = x / (EXTENT_SIZE : ℤ) := by
      rw [Int.tdiv_eq_ediv (by positivity) (by norm_num [EXTENT_SIZE])]
      exact Int.mul_ediv_cancel_left _ (by norm_num [EXTENT_SIZE])
    rw [h1, h2]
  · intro g hg
    have hgl : g.bits.length = MAX_BITS := hlen g (mem_of_getElem_some hg)
    have hgi : extentIndexOf x / MAX_BITS < s.gams.length :=
      getElem?_some_lt hg
    simp only [emDealloc, hg]
    unfold extAlloc
    rw [List.getElem?_set_self hgi]
    refine bmIsSet_bmClear_self ?_
    rw [hgl]
    have := MAX_BITS_ge_two
    exact Nat.mod_lt _ (by omega)

/-- Witness for `dealloc_no_validation` at the bootstrapped state and
the unaligned page id 9. -/
theorem dealloc_no_validation_witness :
    (0 ≤ (9 : ℤ)) ∧
    (∀ g ∈ emInit.gams, g.bits.length = MAX_BITS) ∧
    (emDealloc emInit INVALID_PAGE_ID = emDealloc emInit 0 ∧
     emDealloc emInit 9
       = emDealloc emInit ((EXTENT_SIZE : ℤ) * (9 / (EXTENT_SIZE : ℤ))) ∧
     (∀ g, emInit.gams[extentIndexOf 9 / MAX_BITS]? = some g →
        extAlloc (emDealloc emInit 9).gams (extentIndexOf 9) = false)) :=
  ⟨by decide, emInit_good.1,
   dealloc_no_validation emInit 9 (by decide) emInit_good.1⟩

/-- A bitmap of set bits has no clear bit. -/
theorem findFirstClear_replicate_true :
    ∀ n : ℕ, findFirstClear (List.replicate n true) = none := by
  intro n
  induction n with
  | zero => rfl
  | succ m ih => simp [List.replicate, findFirstClear, ih]

/-- Behaviour of the `allocate_extent` loop when every GAM bitmap of
the chain is full: walk to the chain end, then create a new GAM page —
packed at `gamCandidate` when that is inside the system extent (the
file size is untouched), otherwise at page `total_pages` after growing
the file by one extent, with bit 0 of the new GAM set. -/
theorem allocFrom_allFull :
    ∀ (k : ℕ) (s : EmState) (idx fuel : ℕ) (gl : GamPage),
      s.gams.length - idx = k + 1 →
      idx < s.gams.length →
      s.cursor = idx →
      s.gams.getLast? = some gl →
      (∀ g ∈ s.gams, findFirstClear g.bits = none) →
      s.gams.length - idx + 1 ≤ fuel →
      (gamCandidate gl.id < EXTENT_SIZE →
        allocFrom s idx fuel
          = (EXTENT_SIZE * (s.gams.length * MAX_BITS),
             { gams := s.gams
                 ++ [⟨gamCandidate gl.id,
                      bmSet (List.replicate MAX_BITS false) 0⟩],
               total_pages := s.total_pages,
               cursor := s.gams.length - 1 })) ∧
      (¬ gamCandidate gl.id < EXTENT_SIZE →
        allocFrom s idx fuel
          = (EXTENT_SIZE * (s.gams.length * MAX_BITS + 1),
             { gams := s.gams
                 ++ [⟨s.total_pages,
                      bmSet (bmSet (List.replicate MAX_BITS false) 0) 1⟩],
               total_pages := s.total_pages + EXTENT_SIZE,
               cursor := s.gams.length - 1 })) := by
  intro k
  induction k with
  | zero =>
    intro s idx fuel gl hk hidx hc hlast hfull hf
    have hlast2 : idx + 1 = s.gams.length := by omega
    have hg : s.gams[idx]? = some gl := by
      rw [List.getLast?_eq_getElem?] at hlast
      rwa [show s.gams.length - 1 = idx by omega] at hlast
    have hffc : findFirstClear gl.bits = none :=
      hfull gl (mem_of_getElem_some hg)
    have hnext : ¬ idx + 1 < s.gams.length := by omega
    obtain ⟨f2, rfl⟩ : ∃ f2, fuel = f2 + 1 + 1 :=
      ⟨fuel - 2, by omega⟩
    constructor
    · intro hcand
      have hrec := @allocFrom_createPacked _ _ _ (f2 + 1) hg hffc hnext
        hcand
      have hg3 : (({ s with gams := s.gams
          ++ [⟨gamCandidate gl.id, List.replicate MAX_BITS false⟩] }
            : EmState)).gams[idx + 1]?
          = some ⟨gamCandidate gl.id, List.replicate MAX_BITS false⟩ := by
        show (s.gams ++ [_])[idx + 1]? = _
        rw [hlast2]
        exact List.getElem?_concat_length _ _
      have hffc3 :
          findFirstClear
            (GamPage.bits
              ⟨gamCandidate gl.id, List.replicate MAX_BITS false⟩)
            = some 0 :=
        findFirstClear_replicate (by have := MAX_BITS_ge_two; omega)
      rw [hrec, allocFrom_found hg3 hffc3]
      show (EXTENT_SIZE * ((idx + 1) * MAX_BITS + 0),
            ({ s with gams := (s.gams ++ [_]).set (idx + 1) _ } : EmState))
          = _
      rw [hlast2, set_concat_length, Nat.add_zero]
      have hc2 : s.cursor = s.gams.length - 1 := by omega
      rw [hc2]
    · intro hcand
      have hrec := @allocFrom_createExtend _ _ _ (f2 + 1) hg hffc hnext
        hcand
      have hg3 : (({ s with
          gams := s.gams
            ++ [⟨s.total_pages, bmSet (List.replicate MAX_BITS false) 0⟩],
          total_pages := s.total_pages + EXTENT_SIZE } : EmState)).gams[idx + 1]?
          = some ⟨s.total_pages,
                  bmSet (List.replicate MAX_BITS false) 0⟩ := by
        show (s.gams ++ [_])[idx + 1]? = _
        rw [hlast2]
        exact List.getElem?_concat_length _ _
      have hffc3 :
          findFirstClear
            (GamPage.bits
              ⟨s.total_pages, bmSet (List.replicate MAX_BITS false) 0⟩)
            = some 1 :=
        findFirstClear_selfMarked MAX_BITS_ge_two
      rw [hrec, allocFrom_found hg3 hffc3]
      show (EXTENT_SIZE * ((idx + 1) * MAX_BITS + 1),
            ({ s with gams := (s.gams ++ [_]).set (idx + 1) _,
                      total_pages := s.total_pages + EXTENT_SIZE }
              : EmState))
          = _
      rw [hlast2, set_concat_length]
      have hc2 : s.cursor = s.gams.length - 1 := by omega
      rw [hc2]
  | succ m ih =>
    intro s idx fuel gl hk hidx hc hlast hfull hf
    have hidx2 : idx + 1 < s.gams.length := by omega
    obtain ⟨g, hg⟩ : ∃ g, s.gams[idx]? = some g := by
      rw [List.getElem?_eq_getElem hidx]
      exact ⟨_, rfl⟩
    have hffc : findFirstClear g.bits = none :=
      hfull g (mem_of_getElem_some hg)
    obtain ⟨f2, rfl⟩ : ∃ f2, fuel = f2 + 1 := ⟨fuel - 1, by omega⟩
    have hrec := @allocFrom_advance _ _ _ f2 hg hffc hidx2
    have hih := ih { s with cursor := idx + 1 } (idx + 1) f2 gl
      (by show s.gams.length - (idx + 1) = m + 1; omega) hidx2 rfl
      hlast hfull
      (by show s.gams.length - (idx + 1) + 1 ≤ f2; omega)
    constructor
    · intro hcand
      rw [hrec]
      exact (hih.1 hcand)
    · intro hcand
      rw [hrec]
      exact (hih.2 hcand)

/-- C4: when `allocate_extent` reaches the end of the GAM chain with
every GAM bitmap full, the new GAM page is packed into the system
extent whenever spare slots remain there — in the reachable chains the
last GAM's id is one of 1, 4, 5, 6, the candidate page is 4, 5, 6 or 7
(inside extent 0), and the header's `total_pages` is unchanged.  Only
when the candidate would fall outside extent 0 (`id ≥ 7`) is
`total_pages` grown by `EXTENT_SIZE`, the new GAM placed at the old
`total_pages` (the start of the new extent) with its bit 0 set
(self-allocation, which is also why the returned extent is then bit 1),
and in both cases the new GAM is appended after the previous chain end
(the link `next_bitmap_page_id` is the list order of the model). -/
theorem gam_chain_growth (s : EmState) (gl : GamPage)
    (hlast : s.gams.getLast? = some gl)
    (hcur : s.cursor < s.gams.length)
    (hfull : ∀ g ∈ s.gams, findFirstClear g.bits = none) :
    (gl.id ∈ ([1, 4, 5, 6] : List ℕ) →
      gamCandidate gl.id ∈ ([4, 5, 6, 7] : List ℕ) ∧
      emAlloc s
        = (EXTENT_SIZE * (s.gams.length * MAX_BITS),
           { gams := s.gams
               ++ [⟨gamCandidate gl.id,
                    bmSet (List.replicate MAX_BITS false) 0⟩],
             total_pages := s.total_pages,
             cursor := s.gams.length - 1 })) ∧
    (EXTENT_SIZE ≤ gamCandidate gl.id →
      emAlloc s
        = (EXTENT_SIZE * (s.gams.length * MAX_BITS + 1),
           { gams := s.gams
               ++ [⟨s.total_pages,
                    bmSet (bmSet (List.replicate MAX_BITS false) 0) 1⟩],
             total_pages := s.total_pages + EXTENT_SIZE,
             cursor := s.gams.length - 1 })) := by
  have hall := allocFrom_allFull (s.gams.length - s.cursor - 1) s
    s.cursor (s.gams.length - s.cursor + 2) gl (by omega) hcur rfl
    hlast hfull (by omega)
  constructor
  · intro hmem
    have h4 : gl.id = 1 ∨ gl.id = 4 ∨ gl.id = 5 ∨ gl.id = 6 := by
      simpa using hmem
    have hcand : gamCandidate gl.id ∈ ([4, 5, 6, 7] : List ℕ) ∧
        gamCandidate gl.id < EXTENT_SIZE := by
      rcases h4 with h | h | h | h <;> rw [h] <;> exact (by decide)
    exact ⟨hcand.1, hall.1 hcand.2⟩
  · intro hge
    exact hall.2 (by omega)

/-- Witness for `gam_chain_growth` at a database whose only GAM (page
1) is full: the new GAM is packed at page 4 and `total_pages` stays
`EXTENT_SIZE`. -/
theorem gam_chain_growth_witness :
    (gamFullInit.gams.getLast?
        = some ⟨1, List.replicate MAX_BITS true⟩) ∧
    gamFullInit.cursor < gamFullInit.gams.length ∧
    (∀ g ∈ gamFullInit.gams, findFirstClear g.bits = none) ∧
    ((1 : ℕ) ∈ ([1, 4, 5, 6] : List ℕ)) ∧
    (gamCandidate 1 ∈ ([4, 5, 6, 7] : List ℕ) ∧
     emAlloc gamFullInit
       = (EXTENT_SIZE * (gamFullInit.gams.length * MAX_BITS),
          { gams := gamFullInit.gams
              ++ [⟨gamCandidate 1,
                   bmSet (List.replicate MAX_BITS false) 0⟩],
            total_pages := gamFullInit.total_pages,
            cursor := gamFullInit.gams.length - 1 })) :=
  ⟨rfl, by decide,
   fun g hg => by
     rcases List.mem_singleton.mp hg with rfl
     exact findFirstClear_replicate_true MAX_BITS,
   by decide,
   (gam_chain_growth gamFullInit ⟨1, List.replicate MAX_BITS true⟩
       rfl (by decide)
       (fun g hg => by
         rcases List.mem_singleton.mp hg with rfl
         exact findFirstClear_replicate_true MAX_BITS)).1
     (by decide)⟩

theorem bmIsSet_replicate_false (n j : ℕ) :
    bmIsSet (List.replicate n false) j = false := by
  rw [bmIsSet_eq_getElem, List.getElem?_replicate]
  rcases lt_or_ge j n with h | h
  · rw [if_pos h]
    rfl
  · rw [if_neg (by omega)]
    rfl

theorem bmIsSet_bmSet_iff {l : List Bool} {i j : ℕ} (hi : i < l.length) :
    bmIsSet (bmSet l i) j = true ↔ j = i ∨ bmIsSet l j = true := by
  rcases eq_or_ne j i with rfl | hne
  · simp [@bmIsSet_bmSet_self l _ hi]
  · rw [bmIsSet_eq_getElem, bmIsSet_eq_getElem, bmSet,
      List.getElem?_set_ne (by omega)]
    simp [hne]

theorem SPARSE_pos : 0 < SPARSE_MAX_BITS := by norm_num [SPARSE_MAX_BITS]

/-- Range start of an owned extent inside an aligned range. -/
theorem calc_range_of_aligned {r b : ℕ} (hr : r % SPARSE_MAX_BITS = 0)
    (hb : b < SPARSE_MAX_BITS) :
    calculate_sparse_range_start (r + b) = r := by
  unfold calculate_sparse_range_start at *
  simp only [SPARSE_MAX_BITS] at *
  omega

/-- `calculate_sparse_range_start` produces aligned values. -/
theorem calc_range_aligned (g : ℕ) :
    calculate_sparse_range_start g % SPARSE_MAX_BITS = 0 := by
  unfold calculate_sparse_range_start
  simp only [SPARSE_MAX_BITS]
  omega

/-- An aligned page only contributes its own range start. -/
theorem pageOwnedStarts_subset {p : IamPage}
    (hr : p.extent_range_start % SPARSE_MAX_BITS = 0) :
    pageOwnedStarts p ⊆ {p.extent_range_start} := by
  intro x hx
  simp only [pageOwnedStarts, pageOwned, List.map_map,
    List.mem_toFinset, List.mem_map, List.mem_filter,
    List.mem_range, Function.comp] at hx
  obtain ⟨b, ⟨hb, _⟩, rfl⟩ := hx
  rw [calc_range_of_aligned hr hb]
  exact Finset.mem_singleton_self _

/-- A page with bit `b` set owns an extent of its own range. -/
theorem pageOwnedStarts_of_set {p : IamPage} {b : ℕ}
    (hr : p.extent_range_start % SPARSE_MAX_BITS = 0)
    (hb : b < SPARSE_MAX_BITS) (hset : bmIsSet p.bits b = true) :
    pageOwnedStarts p = {p.extent_range_start} := by
  refine Finset.Subset.antisymm (pageOwnedStarts_subset hr) ?_
  intro x hx
  rcases Finset.mem_singleton.mp hx with rfl
  simp only [pageOwnedStarts, pageOwned, List.map_map,
    List.mem_toFinset, List.mem_map, List.mem_filter,
    List.mem_range, Function.comp]
  exact ⟨b, ⟨hb, hset⟩, calc_range_of_aligned hr hb⟩

/-- Setting bit `b` of an aligned page makes its owned-range set
exactly its own range start. -/
theorem pageOwnedStarts_bmSet {p : IamPage} {b : ℕ}
    (hr : p.extent_range_start % SPARSE_MAX_BITS = 0)
    (hb : b < SPARSE_MAX_BITS) (hlen : p.bits.length = SPARSE_MAX_BITS) :
    pageOwnedStarts { p with bits := bmSet p.bits b }
      = {p.extent_range_start} :=
  @pageOwnedStarts_of_set { p with bits := bmSet p.bits b } _ hr hb
    (bmIsSet_bmSet_self (by omega))

theorem chainOwnedStarts_cons (p : IamPage) (rest : List IamPage) :
    chainOwnedStarts (p :: rest)
      = pageOwnedStarts p ∪ chainOwnedStarts rest := by
  simp [chainOwnedStarts, chainOwned, pageOwnedStarts,
    List.toFinset_append]

theorem chainOwnedStarts_nil : chainOwnedStarts [] = ∅ := rfl

/-- A fresh all-clear page owns nothing. -/
theorem pageOwnedStarts_fresh (r : ℕ) :
    pageOwnedStarts ⟨r, List.replicate SPARSE_MAX_BITS false⟩ = ∅ := by
  simp [pageOwnedStarts, pageOwned, bmIsSet_replicate_false]

/-- The chain walk keeps the range starts strictly sorted and adds
exactly the target range to the set of ranges. -/
theorem iamGo_ranges (r b : ℕ) :
    ∀ c : List IamPage,
      List.Pairwise (· < ·) (c.map IamPage.extent_range_start) →
      List.Pairwise (· < ·)
        ((iamAllocGo r b c).map IamPage.extent_range_start) ∧
      ((iamAllocGo r b c).map IamPage.extent_range_start).toFinset
        = insert r (c.map IamPage.extent_range_start).toFinset := by
  intro c
  induction c with
  | nil =>
      intro _
      constructor
      · simp [iamAllocGo]
      · simp [iamAllocGo]
  | cons p rest ih =>
    intro hpw
    rw [List.map_cons, List.pairwise_cons] at hpw
    obtain ⟨hhead, htail⟩ := hpw
    by_cases h1 : p.extent_range_start = r
    · by_cases h2 : bmIsSet p.bits b
      · constructor
        · rw [iamAllocGo, if_pos h1, if_pos h2, List.map_cons,
            List.pairwise_cons]
          exact ⟨hhead, htail⟩
        · rw [iamAllocGo, if_pos h1, if_pos h2, List.map_cons]
          rw [List.toFinset_cons, h1,
            Finset.insert_idem]
      · constructor
        · rw [iamAllocGo, if_pos h1, if_neg h2, List.map_cons,
            List.pairwise_cons]
          exact ⟨hhead, htail⟩
        · rw [iamAllocGo, if_pos h1, if_neg h2, List.map_cons]
          show (p.extent_range_start
              :: rest.map IamPage.extent_range_start).toFinset = _
          rw [List.toFinset_cons, h1, List.map_cons, List.toFinset_cons,
            h1, Finset.insert_idem]
    · by_cases h3 : r < p.extent_range_start
      · constructor
        · rw [iamAllocGo, if_neg h1, if_pos h3, List.map_cons,
            List.map_cons, List.pairwise_cons]
          refine ⟨?_, ?_⟩
          · intro y hy
            rcases List.mem_cons.mp hy with rfl | hy
            · exact h3
            · exact lt_trans h3 (hhead y hy)
          · rw [List.pairwise_cons]
            exact ⟨hhead, htail⟩
        · rw [iamAllocGo, if_neg h1, if_pos h3, List.map_cons,
            List.map_cons, List.toFinset_cons, List.toFinset_cons]
      · have h4 : p.extent_range_start < r := by omega
        obtain ⟨ihp, ihf⟩ := ih htail
        constructor
        · rw [iamAllocGo, if_neg h1, if_neg h3, List.map_cons,
            List.pairwise_cons]
          refine ⟨?_, ihp⟩
          intro y hy
          have hy2 : y ∈ insert r
              (rest.map IamPage.extent_range_start).toFinset := by
            rw [← ihf]
            exact List.mem_toFinset.mpr hy
          rcases Finset.mem_insert.mp hy2 with rfl | hy2
          · exact h4
          · exact hhead y (List.mem_toFinset.mp hy2)
        · rw [iamAllocGo, if_neg h1, if_neg h3, List.map_cons,
            List.toFinset_cons, ihf, List.map_cons, List.toFinset_cons]
          exact Finset.Insert.comm _ _ _

/-- The chain walk preserves alignment and bitmap sizes of all pages. -/
theorem iamGo_wf (r b : ℕ) (hr : r % SPARSE_MAX_BITS = 0) :
    ∀ c : List IamPage,
      (∀ p ∈ c, p.extent_range_start % SPARSE_MAX_BITS = 0 ∧
         p.bits.length = SPARSE_MAX_BITS) →
      ∀ p ∈ iamAllocGo r b c,
        p.extent_range_start % SPARSE_MAX_BITS = 0 ∧
        p.bits.length = SPARSE_MAX_BITS := by
  intro c
  induction c with
  | nil =>
      intro _ p hp
      rw [iamAllocGo] at hp
      rcases List.mem_singleton.mp hp with rfl
      exact ⟨hr, by simp [bmSet_length]⟩
  | cons q rest ih =>
    intro hwf p hp
    have hq := hwf q (List.mem_cons_self q rest)
    have hrest : ∀ x ∈ rest, x.extent_range_start % SPARSE_MAX_BITS = 0 ∧
        x.bits.length = SPARSE_MAX_BITS :=
      fun x hx => hwf x (List.mem_cons_of_mem q hx)
    rw [iamAllocGo] at hp
    by_cases h1 : q.extent_range_start = r
    · rw [if_pos h1] at hp
      by_cases h2 : bmIsSet q.bits b
      · rw [if_pos h2] at hp
        rcases List.mem_cons.mp hp with rfl | hp
        · exact hq
        · exact hrest p hp
      · rw [if_neg h2] at hp
        rcases List.mem_cons.mp hp with rfl | hp
        · exact ⟨hq.1, by simp [bmSet_length, hq.2]⟩
        · exact hrest p hp
    · rw [if_neg h1] at hp
      by_cases h3 : r < q.extent_range_start
      · rw [if_pos h3] at hp
        rcases List.mem_cons.mp hp with rfl | hp
        · exact ⟨hr, by simp [bmSet_length]⟩
        · rcases List.mem_cons.mp hp with rfl | hp
          · exact hq
          · exact hrest p hp
      · rw [if_neg h3] at hp
        rcases List.mem_cons.mp hp with rfl | hp
        · exact hq
        · exact ih hrest p hp

/-- The chain walk adds exactly the target range to the set of owned
range starts. -/
theorem iamGo_owned (r b : ℕ) (hr : r % SPARSE_MAX_BITS = 0)
    (hb : b < SPARSE_MAX_BITS) :
    ∀ c : List IamPage,
      (∀ p ∈ c, p.extent_range_start % SPARSE_MAX_BITS = 0 ∧
         p.bits.length = SPARSE_MAX_BITS) →
      chainOwnedStarts (iamAllocGo r b c)
        = insert r (chainOwnedStarts c) := by
  intro c
  induction c with
  | nil =>
      intro _
      rw [iamAllocGo]
      rw [show chainOwnedStarts
            [⟨r, bmSet (List.replicate SPARSE_MAX_BITS false) b⟩]
          = pageOwnedStarts
              ⟨r, bmSet (List.replicate SPARSE_MAX_BITS false) b⟩
            ∪ chainOwnedStarts [] from chainOwnedStarts_cons _ _]
      rw [@pageOwnedStarts_of_set
          ⟨r, bmSet (List.replicate SPARSE_MAX_BITS false) b⟩ _
          hr hb (bmIsSet_bmSet_self (by simpa using hb)),
        chainOwnedStarts_nil]
      simp
  | cons q rest ih =>
    intro hwf
    have hq := hwf q (List.mem_cons_self q rest)
    have hrest : ∀ x ∈ rest, x.extent_range_start % SPARSE_MAX_BITS = 0 ∧
        x.bits.length = SPARSE_MAX_BITS :=
      fun x hx => hwf x (List.mem_cons_of_mem q hx)
    rw [iamAllocGo]
    by_cases h1 : q.extent_range_start = r
    · by_cases h2 : bmIsSet q.bits b
      · rw [if_pos h1, if_pos h2, chainOwnedStarts_cons,
          pageOwnedStarts_of_set hq.1 hb h2, h1]
        exact (Finset.insert_eq_self.mpr
          (Finset.mem_union_left _ (Finset.mem_singleton_self r))).symm
      · rw [if_pos h1, if_neg h2]
        rw [show chainOwnedStarts
              ({ q with bits := bmSet q.bits b } :: rest)
            = pageOwnedStarts { q with bits := bmSet q.bits b }
              ∪ chainOwnedStarts rest from chainOwnedStarts_cons _ _]
        rw [pageOwnedStarts_bmSet hq.1 hb hq.2, h1,
          chainOwnedStarts_cons]
        have hsub := pageOwnedStarts_subset hq.1
        rw [h1] at hsub
        ext x
        simp only [Finset.mem_union, Finset.mem_singleton,
          Finset.mem_insert]
        constructor
        · intro h
          tauto
        · intro h
          rcases h with h | h | h
          · exact Or.inl h
          · exact Or.inl (Finset.mem_singleton.mp (hsub h))
          · exact Or.inr h
    · by_cases h3 : r < q.extent_range_start
      · rw [if_neg h1, if_pos h3]
        rw [show chainOwnedStarts
              (⟨r, bmSet (List.replicate SPARSE_MAX_BITS false) b⟩
                :: q :: rest)
            = pageOwnedStarts
                ⟨r, bmSet (List.replicate SPARSE_MAX_BITS false) b⟩
              ∪ chainOwnedStarts (q :: rest)
            from chainOwnedStarts_cons _ _]
        rw [@pageOwnedStarts_of_set
            ⟨r, bmSet (List.replicate SPARSE_MAX_BITS false) b⟩ _
            hr hb (bmIsSet_bmSet_self (by simpa using hb)),
          Finset.insert_eq]
      · rw [if_neg h1, if_neg h3, chainOwnedStarts_cons, ih hrest,
          chainOwnedStarts_cons, Finset.union_insert]

theorem iam_bit_lt (g : ℕ) :
    g - calculate_sparse_range_start g < SPARSE_MAX_BITS := by
  unfold calculate_sparse_range_start
  simp only [SPARSE_MAX_BITS]
  omega

theorem iamAlloc_inv (g : ℕ) {c : List IamPage} (h : IamInv c) :
    IamInv (iamAlloc g c) := by
  obtain ⟨hpw, hwf, hfs⟩ := h
  have hr := calc_range_aligned g
  have hb := iam_bit_lt g
  obtain ⟨hpw2, hfs2⟩ :=
    iamGo_ranges (calculate_sparse_range_start g)
      (g - calculate_sparse_range_start g) c hpw
  refine ⟨hpw2, iamGo_wf _ _ hr c hwf, ?_⟩
  show (List.map IamPage.extent_range_start
      (iamAllocGo (calculate_sparse_range_start g)
        (g - calculate_sparse_range_start g) c)).toFinset
    = insert 0 (chainOwnedStarts
        (iamAllocGo (calculate_sparse_range_start g)
          (g - calculate_sparse_range_start g) c))
  rw [hfs2, hfs, iamGo_owned _ _ hr hb c hwf, Finset.Insert.comm]

theorem create_iam_chain_inv : IamInv create_iam_chain := by
  refine ⟨by simp [create_iam_chain], ?_, ?_⟩
  · intro p hp
    rcases List.mem_singleton.mp hp with rfl
    simp
  · rw [show chainOwnedStarts create_iam_chain
        = pageOwnedStarts ⟨0, List.replicate SPARSE_MAX_BITS false⟩
          ∪ chainOwnedStarts [] from chainOwnedStarts_cons _ _]
    rw [pageOwnedStarts_fresh, chainOwnedStarts_nil]
    simp [create_iam_chain]

theorem iamRun_inv (gs : List ℕ) : IamInv (iamRun gs) := by
  suffices h : ∀ c : List IamPage, IamInv c →
      IamInv (gs.foldl (fun c g => iamAlloc g c) c) from
    h create_iam_chain create_iam_chain_inv
  induction gs with
  | nil => intro c hc; exact hc
  | cons g rest ih =>
      intro c hc
      exact ih (iamAlloc g c) (iamAlloc_inv g hc)

theorem toFinset_map_image {α β : Type} [DecidableEq α] [DecidableEq β]
    (f : α → β) (l : List α) :
    (l.map f).toFinset = l.toFinset.image f := by
  ext x
  simp

theorem chainOwnedStarts_aligned {c : List IamPage} {x : ℕ}
    (hx : x ∈ chainOwnedStarts c) : x % SPARSE_MAX_BITS = 0 := by
  simp only [chainOwnedStarts, List.mem_toFinset, List.mem_map] at hx
  obtain ⟨g, _, rfl⟩ := hx
  exact calc_range_aligned g

/-- C2 (counterexample): the claim says the chain length equals the
number of distinct values of `⌊g / SPARSE_MAX_BITS⌋` over the owned
extents, for every chain produced by `create_iam_chain` /
`allocate_extent` calls.  The chain produced by `create_iam_chain`
alone has length 1 but owns no extents, so that number is 0. -/
theorem iam_fresh_chain_count_cex :
    create_iam_chain.length = 1 ∧
    chainOwned create_iam_chain = [] ∧
    create_iam_chain.length
      ≠ (((chainOwned create_iam_chain).map
            (fun g => g / SPARSE_MAX_BITS)).toFinset).card := by
  have h : chainOwned create_iam_chain = [] := by
    simp [chainOwned, create_iam_chain, pageOwned,
      bmIsSet_replicate_false]
  refine ⟨rfl, h, ?_⟩
  rw [h]
  decide

/-- C2 (amended): for every sequence of global extent indexes handed
out by the Extent Manager, the resulting sparse IAM chain has strictly
ascending `extent_range_start`s, every range start is a multiple of
`SPARSE_MAX_BITS`, no two pages share a range, and the chain length
equals the number of distinct values of `⌊g / SPARSE_MAX_BITS⌋` over
the owned extents *plus the always-present head range 0* — i.e. the
cardinality of `{0} ∪ {⌊g / SPARSE_MAX_BITS⌋ : g owned}`.  (The
original count is off by one exactly when no owned extent falls in
range 0, e.g. for a freshly created chain.) -/
theorem iam_chain_invariants (gs : List ℕ) :
    List.Pairwise (· < ·)
      ((iamRun gs).map IamPage.extent_range_start) ∧
    (∀ p ∈ iamRun gs,
       p.extent_range_start % SPARSE_MAX_BITS = 0) ∧
    ((iamRun gs).map IamPage.extent_range_start).Nodup ∧
    (iamRun gs).length
      = (insert 0
          (((chainOwned (iamRun gs)).map
              (fun g => g / SPARSE_MAX_BITS)).toFinset)).card := by
  obtain ⟨hpw, hwf, hfs⟩ := iamRun_inv gs
  have hnodup :
      ((iamRun gs).map IamPage.extent_range_start).Nodup :=
    hpw.nodup
  refine ⟨hpw, fun p hp => (hwf p hp).1, hnodup, ?_⟩
  have h1 : (iamRun gs).length
      = ((iamRun gs).map IamPage.extent_range_start).toFinset.card := by
    rw [List.toFinset_card_of_nodup hnodup, List.length_map]
  rw [h1, hfs]
  have himg :
      Finset.image (· / SPARSE_MAX_BITS)
          (insert 0 (chainOwnedStarts (iamRun gs)))
        = insert 0
            (((chainOwned (iamRun gs)).map
                (fun g => g / SPARSE_MAX_BITS)).toFinset) := by
    rw [Finset.image_insert, Nat.zero_div, chainOwnedStarts,
      toFinset_map_image, Finset.image_image, toFinset_map_image]
    congr 1
    refine Finset.image_congr ?_
    intro x _
    show calculate_sparse_range_start x / SPARSE_MAX_BITS
        = x / SPARSE_MAX_BITS
    unfold calculate_sparse_range_start
    simp only [SPARSE_MAX_BITS]
    omega
  have hinj : Set.InjOn (· / SPARSE_MAX_BITS)
      ↑(insert 0 (chainOwnedStarts (iamRun gs))) := by
    intro x hx y hy hxy
    have hax : x % SPARSE_MAX_BITS = 0 := by
      rcases Finset.mem_insert.mp (by simpa using hx) with rfl | hx2
      · simp
      · exact chainOwnedStarts_aligned hx2
    have hay : y % SPARSE_MAX_BITS = 0 := by
      rcases Finset.mem_insert.mp (by simpa using hy) with rfl | hy2
      · simp
      · exact chainOwnedStarts_aligned hy2
    simp only [SPARSE_MAX_BITS] at hax hay hxy ⊢
    omega
  rw [← himg]
  exact (Finset.card_image_of_injOn hinj).symm

/-- Witness for `iam_chain_invariants` with one allocation of global
extent 1: the chain is the single head page with bit 1 set. -/
theorem iam_chain_invariants_witness :
    List.Pairwise (· < ·)
      ((iamRun [1]).map IamPage.extent_range_start) ∧
    ((⟨0, bmSet (List.replicate SPARSE_MAX_BITS false) 1⟩ : IamPage)
        ∈ iamRun [1] ∧
     (0 : ℕ) % SPARSE_MAX_BITS = 0) ∧
    ((iamRun [1]).map IamPage.extent_range_start).Nodup ∧
    (iamRun [1]).length
      = (insert 0
          (((chainOwned (iamRun [1])).map
              (fun g => g / SPARSE_MAX_BITS)).toFinset)).card := by
  have hrun : iamRun [1]
      = [⟨0, bmSet (List.replicate SPARSE_MAX_BITS false) 1⟩] := by
    rw [iamRun, List.foldl_cons, List.foldl_nil, iamAlloc,
      show calculate_sparse_range_start 1 = 0 from by
        unfold calculate_sparse_range_start
        simp [SPARSE_MAX_BITS],
      create_iam_chain, iamAllocGo]
    rw [if_pos rfl, if_neg (by rw [bmIsSet_replicate_false]; simp)]
  obtain ⟨h1, h2, h3, h4⟩ := iam_chain_invariants [1]
  refine ⟨h1, ⟨?_, ?_⟩, h3, h4⟩
  · rw [hrun]
    exact List.mem_singleton.mpr rfl
  · exact h2 _ (by
      rw [hrun]
      exact List.mem_singleton.mpr rfl)

/-- C8: the claim (and the repo's own `DateLiteral` /
`TimestampLiteral` lexer tests) says the lexer classifies a
single-quoted literal by its contents, yielding a `DateLiteral` for
`'2025-10-31'`.  `Lexer::make_string` in `lexer.cpp` does no such
classification: it always returns `STRING_LITERAL`, and it never
consumes the closing quote, so the quote starts a *second* spurious
string literal swallowing the rest of the input.  This theorem
evaluates the lexer on the test's input: the token stream is
`[SELECT, StringLiteral "2025-10-31", StringLiteral " FROM events;",
EOF]` — the second token is not a `DateLiteral`, and no `FROM` /
identifier / semicolon tokens appear at all. -/
theorem lexer_no_date_literal_eval :
    tokenize selDateInput
      = [⟨.kwSelect, "SELECT".toList⟩,
         ⟨.strLit, "2025-10-31".toList⟩,
         ⟨.strLit, " FROM events;".toList⟩,
         ⟨.eofile, []⟩] ∧
    ((tokenize selDateInput)[1]?.map Tok.type ≠ some TokType.dateLit) ∧
    (∀ t ∈ tokenize selDateInput, t.type ≠ TokType.kwFrom) := by
  refine ⟨by decide, by decide, by decide⟩

/-- C7: precedence and associativity of the expression parser.
First conjunct: lexing and parsing the claim's statement
`SELECT x FROM t WHERE a = 1 OR b = 2 AND c = 3` yields a WHERE
expression grouped as `OR(a = 1, AND(b = 2, c = 3))` — AND binds
tighter than OR, and `=` tighter than both.  Remaining conjuncts, for
arbitrary identifier names: `a OR b AND c` groups as `a OR (b AND c)`,
while `a OR b OR c`, `a AND b AND c` and `a < b > c` group to the
left, so OR, AND and the relational level are each left-associative
with OR lowest, then AND, then the relational operators. -/
theorem parser_precedence :
    (parseSelectNode 32 (tokenize selPrecInput)
      = .ok (⟨false, [⟨.ident "x".toList, none⟩], ⟨"t".toList, none⟩, [],
              some (.binOp
                (.binOp (.ident "a".toList) "=".toList (.intL 1))
                "OR".toList
                (.binOp
                  (.binOp (.ident "b".toList) "=".toList (.intL 2))
                  "AND".toList
                  (.binOp (.ident "c".toList) "=".toList (.intL 3))))⟩,
             [eofTok])) ∧
    (∀ na nb nc : List Char,
      parseLogical 32 [idTok na, orTok, idTok nb, andTok, idTok nc, eofTok]
        = .ok (.binOp (.ident na) "OR".toList
                 (.binOp (.ident nb) "AND".toList (.ident nc)), [eofTok]) ∧
      parseLogical 32 [idTok na, orTok, idTok nb, orTok, idTok nc, eofTok]
        = .ok (.binOp (.binOp (.ident na) "OR".toList (.ident nb))
                 "OR".toList (.ident nc), [eofTok]) ∧
      parseLogical 32 [idTok na, andTok, idTok nb, andTok, idTok nc, eofTok]
        = .ok (.binOp (.binOp (.ident na) "AND".toList (.ident nb))
                 "AND".toList (.ident nc), [eofTok]) ∧
      parseLogical 32 [idTok na, ltTok, idTok nb, gtTok, idTok nc, eofTok]
        = .ok (.binOp (.binOp (.ident na) "<".toList (.ident nb))
                 ">".toList (.ident nc), [eofTok])) := by
  refine ⟨rfl, fun na nb nc => ⟨rfl, rfl, rfl, rfl⟩⟩

/-- `takeWhile` passes over a prefix all of whose elements satisfy the
predicate. -/
theorem takeWhile_append_all {p : Char → Bool} :
    ∀ (s r : List Char), (∀ c ∈ s, p c = true) →
      (s ++ r).takeWhile p = s ++ r.takeWhile p := by
  intro s
  induction s with
  | nil => intro r _; simp
  | cons c cs ih =>
    intro r h
    have hc : p c = true := h c (by simp)
    simp only [List.cons_append, List.takeWhile_cons, hc, if_true]
    rw [ih r (fun d hd => h d (by simp [hd]))]

/-- Writing a NUL-free name of at most 31 characters into a name
buffer and reading it back is the identity. -/
theorem nameLoad_nameStore (s : List Char) (h31 : s.length ≤ 31)
    (hn : ∀ c ∈ s, c ≠ NULC) : nameLoad (nameStore s) = s := by
  unfold nameLoad nameStore
  have htake : s.take MAX_NAME_LENGTH = s :=
    List.take_of_length_le (by unfold MAX_NAME_LENGTH; omega)
  rw [htake]
  obtain ⟨k, hk⟩ : ∃ k, MAX_NAME_LENGTH - s.length = k + 1 :=
    ⟨MAX_NAME_LENGTH - s.length - 1, by unfold MAX_NAME_LENGTH; omega⟩
  rw [hk, takeWhile_append_all s _ (fun c hc => by simp [hn c hc])]
  rw [List.replicate_succ]
  simp [List.takeWhile_cons]

/-- A tombstone-free slot directory stays tombstone-free when a slot
of nonzero length is appended. -/
theorem findTombAux_append {α : Type} (s : MSlot α) (hs : s.length ≠ 0) :
    ∀ (l : List (MSlot α)) (i : ℕ), findTombAux l i = none →
      findTombAux (l ++ [s]) i = none := by
  intro l
  induction l with
  | nil => intro i _; simp [findTombAux, hs]
  | cons t rest ih =>
    intro i h
    by_cases ht : t.length = 0
    · simp [findTombAux, ht] at h
    · simp only [findTombAux, ht, if_false, List.cons_append,
        ite_eq_right_iff] at h ⊢
      exact ih _ h

/-- `insert_tuple` on a tombstone-free page with room for the tuple
and a new slot entry appends a slot at the end of the directory. -/
theorem insertTuple_append {α : Type} (p : SPage α) (v : α) (sz : ℕ)
    (hclean : p.firstFree = none) (hroom : sz + SLOT_SIZE ≤ p.freeSpace) :
    p.insertTuple v sz =
      ((p.numSlots : ℤ),
       ⟨p.slots ++ [⟨p.free_space_pointer - sz, sz, v⟩],
        p.free_space_pointer - sz, (p.tuple_count + 1) % 2 ^ 16⟩) := by
  simp only [SPage.insertTuple, hclean]
  rw [if_neg (by omega)]

/-- Repeated catalog inserts on a tombstone-free page with enough free
space append exactly the given records, in order, and leave the page
tombstone-free with the free space reduced accordingly. -/
theorem catPut_foldl_scan {α : Type} (sz : ℕ) (hsz : sz ≠ 0) :
    ∀ (rs : List α) (p : SPage α), p.firstFree = none →
      rs.length * (sz + SLOT_SIZE) ≤ p.freeSpace →
      (rs.foldl (fun pg c => catPut pg c sz) p).scanRecords
        = p.scanRecords ++ rs := by
  intro rs
  induction rs with
  | nil => intro p _ _; simp
  | cons r rest ih =>
    intro p hclean hroom
    rw [List.length_cons, Nat.succ_mul] at hroom
    have hroom1 : sz + SLOT_SIZE ≤ p.freeSpace := by
      have h0 : 0 ≤ rest.length * (sz + SLOT_SIZE) := Nat.zero_le _
      omega
    have hfs : SLOTTED_HEADER_SIZE + p.numSlots * SLOT_SIZE + sz + SLOT_SIZE
        ≤ p.free_space_pointer := by
      unfold SPage.freeSpace at hroom1
      by_cases hlt : p.free_space_pointer
          < SLOTTED_HEADER_SIZE + p.numSlots * SLOT_SIZE
      · rw [if_pos hlt] at hroom1
        simp only [SLOT_SIZE] at hroom1
        omega
      · rw [if_neg hlt] at hroom1
        omega
    have hins := insertTuple_append p r sz hclean hroom1
    have hq : catPut p r sz =
        ⟨p.slots ++ [⟨p.free_space_pointer - sz, sz, r⟩],
         p.free_space_pointer - sz, (p.tuple_count + 1) % 2 ^ 16⟩ := by
      unfold catPut; rw [hins]
    have hclean2 : (catPut p r sz).firstFree = none := by
      rw [hq]
      exact findTombAux_append _ hsz p.slots 0 hclean
    have hfree2 : (catPut p r sz).freeSpace = p.freeSpace - (sz + SLOT_SIZE) := by
      rw [hq]
      unfold SPage.numSlots at hfs
      unfold SPage.freeSpace SPage.numSlots
      simp only [List.length_append, List.length_cons, List.length_nil]
      simp only [SLOTTED_HEADER_SIZE, SLOT_SIZE] at hfs ⊢
      rw [if_neg (by omega)]
      rw [if_neg (by omega)]
      omega
    have hroom2 : rest.length * (sz + SLOT_SIZE) ≤ (catPut p r sz).freeSpace := by
      rw [hfree2]
      omega
    have hscan1 : (catPut p r sz).scanRecords = p.scanRecords ++ [r] := by
      rw [hq]
      unfold SPage.scanRecords
      simp [List.filter_append, hsz]
    rw [List.foldl_cons, ih (catPut p r sz) hclean2 hroom2, hscan1]
    simp

/-- `catPut_foldl_scan` through a record-building function. -/
theorem catPut_foldl_scan_map {α β : Type} (g : β → α) (sz : ℕ) (hsz : sz ≠ 0)
    (rs : List β) (p : SPage α) (hclean : p.firstFree = none)
    (hroom : rs.length * (sz + SLOT_SIZE) ≤ p.freeSpace) :
    (rs.foldl (fun pg c => catPut pg (g c) sz) p).scanRecords
      = p.scanRecords ++ rs.map g := by
  have h1 : rs.foldl (fun pg c => catPut pg (g c) sz) p
      = (rs.map g).foldl (fun pg r => catPut pg r sz) p :=
    (List.foldl_map g (fun pg r => catPut pg r sz) rs p).symm
  rw [h1, catPut_foldl_scan sz hsz (rs.map g) p hclean
    (by rw [List.length_map]; exact hroom)]

/-- C6: after bootstrap, `create_table(name, schema)` on a fresh name
succeeds, `get_table(name)` then returns metadata with the new oid
(100), the name, the new IAM head page, and columns that are exactly
the declared schema — same order, names, types, lengths and offsets —
and a second `create_table` of the same name returns `false`.  The
hypotheses delimit where the C++ code is well defined: the name and
column names are NUL-free and at most 31 characters (so the `strncpy`
buffers stay NUL-terminated), the name differs from the two system
table names, `create_iam_chain` succeeded, and the schema has at most
75 columns (so the hardcoded `sys_columns` data page, already holding
9 bootstrap rows, never fills up). -/
theorem catalog_create_get_roundtrip
    (name : List Char) (schema : List CColumn) (new_diam : ℤ)
    (hlen : name.length ≤ 31) (hnul : ∀ c ∈ name, c ≠ NULC)
    (hst : name ≠ "sys_tables".toList) (hsc : name ≠ "sys_columns".toList)
    (hdiam : new_diam ≠ INVALID_PAGE_ID)
    (hcols : ∀ c ∈ schema, c.name.length ≤ 31 ∧ ∀ ch ∈ c.name, ch ≠ NULC)
    (hfit : schema.length ≤ 75) :
    (catCreateTable bootstrapState name schema new_diam).1 = true ∧
    catGetTable (catCreateTable bootstrapState name schema new_diam).2 name
      = some ⟨100, name, new_diam, schema⟩ ∧
    ∀ (schema2 : List CColumn) (d2 : ℤ),
      (catCreateTable (catCreateTable bootstrapState name schema new_diam).2
          name schema2 d2).1 = false := by
  have hb1 : (name == nameLoad (nameStore ("sys_tables".toList))) = false := by
    rw [show nameLoad (nameStore ("sys_tables".toList)) = "sys_tables".toList
      from by decide]
    exact beq_eq_false_iff_ne.mpr hst
  have hb2 : (name == nameLoad (nameStore ("sys_columns".toList))) = false := by
    rw [show nameLoad (nameStore ("sys_columns".toList)) = "sys_columns".toList
      from by decide]
    exact beq_eq_false_iff_ne.mpr hsc
  have hself : (name == nameLoad (nameStore name)) = true := by
    rw [nameLoad_nameStore name hlen hnul]
    exact beq_self_eq_true name
  have hscanST : bootstrapState.stPage.scanRecords = bootTables := by decide
  have hscanSC : bootstrapState.scPage.scanRecords = bootColumns := by decide
  have hfind0 : List.find? (fun r => name == nameLoad r.name) bootTables
      = none := by
    simp only [bootTables, List.find?, hb1, hb2]
  have hget0 : catGetTable bootstrapState name = none := by
    unfold catGetTable
    rw [hscanST, hfind0]
  have hcreate : catCreateTable bootstrapState name schema new_diam
      = (true,
         ⟨catPut bootstrapState.stPage
            ⟨100, nameStore name, new_diam, schema.length % 2 ^ 16⟩
            SYS_TABLES_SIZE,
          schema.foldl
            (fun pg c => catPut pg (colRecOf 100 c) SYS_COLUMNS_SIZE)
            bootstrapState.scPage,
          101⟩) := by
    simp only [catCreateTable, hget0]
    rw [if_neg hdiam]
    rfl
  have hscan2 : (catPut bootstrapState.stPage
      ⟨100, nameStore name, new_diam, schema.length % 2 ^ 16⟩
      SYS_TABLES_SIZE).scanRecords
      = bootTables
        ++ [⟨100, nameStore name, new_diam, schema.length % 2 ^ 16⟩] := by
    have h := catPut_foldl_scan SYS_TABLES_SIZE (by decide)
      [⟨100, nameStore name, new_diam, schema.length % 2 ^ 16⟩]
      bootstrapState.stPage (by decide)
      (by rw [List.length_singleton]; decide)
    simpa [hscanST] using h
  have hroomSC : schema.length * (SYS_COLUMNS_SIZE + SLOT_SIZE)
      ≤ bootstrapState.scPage.freeSpace := by
    calc schema.length * (SYS_COLUMNS_SIZE + SLOT_SIZE)
        ≤ 75 * (SYS_COLUMNS_SIZE + SLOT_SIZE) :=
          Nat.mul_le_mul_right _ hfit
      _ ≤ bootstrapState.scPage.freeSpace := by decide
  have hscan3 : (schema.foldl
      (fun pg c => catPut pg (colRecOf 100 c) SYS_COLUMNS_SIZE)
      bootstrapState.scPage).scanRecords
      = bootColumns ++ schema.map (colRecOf 100) := by
    rw [catPut_foldl_scan_map (colRecOf 100) SYS_COLUMNS_SIZE (by decide)
      schema bootstrapState.scPage (by decide) hroomSC, hscanSC]
  have hfind2 : (bootTables
      ++ [(⟨100, nameStore name, new_diam, schema.length % 2 ^ 16⟩ :
            SysTablesRec)]).find? (fun r => name == nameLoad r.name)
      = some ⟨100, nameStore name, new_diam, schema.length % 2 ^ 16⟩ := by
    simp only [bootTables, List.cons_append, List.nil_append, List.find?,
      hb1, hb2, hself]
  have hfilterBoot : bootColumns.filter (fun c => c.table_oid == 100) = [] := by
    decide
  have hfilterNew : (schema.map (colRecOf 100)).filter
      (fun c => c.table_oid == 100) = schema.map (colRecOf 100) := by
    refine List.filter_eq_self.mpr ?_
    intro a ha
    obtain ⟨c, _, rfl⟩ := List.mem_map.mp ha
    simp [colRecOf]
  have hmapBack : (schema.map (colRecOf 100)).map
      (fun c => (⟨nameLoad c.name, c.type, c.length, c.offset⟩ : CColumn))
      = schema := by
    rw [List.map_map]
    have : ∀ c ∈ schema,
        ((fun c => (⟨nameLoad c.name, c.type, c.length, c.offset⟩ : CColumn))
          ∘ colRecOf 100) c = c := by
      intro c hc
      obtain ⟨cn, ct, cl, co⟩ := c
      have h := hcols _ hc
      simp only [Function.comp, colRecOf]
      rw [nameLoad_nameStore _ h.1 h.2]
    rw [List.map_congr_left this]
    exact List.map_id' schema
  have hC : catGetTable (catCreateTable bootstrapState name schema new_diam).2
      name = some ⟨100, name, new_diam, schema⟩ := by
    rw [hcreate]
    unfold catGetTable
    dsimp only
    rw [hscan2, hfind2]
    dsimp only
    rw [hscan3, List.filter_append, hfilterBoot, hfilterNew,
        List.nil_append, hmapBack, nameLoad_nameStore name hlen hnul]
  refine ⟨by rw [hcreate], hC, ?_⟩
  intro schema2 d2
  obtain ⟨st2, hst2⟩ : ∃ st2,
      (catCreateTable bootstrapState name schema new_diam).2 = st2 := ⟨_, rfl⟩
  rw [hst2] at hC ⊢
  simp [catCreateTable, hC]

theorem catalog_create_get_roundtrip_witness :
    (catCreateTable bootstrapState ("users".toList) usersSchema 24).1
        = true ∧
    catGetTable
        (catCreateTable bootstrapState ("users".toList) usersSchema 24).2
        ("users".toList)
      = some ⟨100, "users".toList, 24, usersSchema⟩ ∧
    (catCreateTable
        (catCreateTable bootstrapState ("users".toList) usersSchema 24).2
        ("users".toList) [] 0).1 = false := by
  have h := catalog_create_get_roundtrip ("users".toList) usersSchema 24
    (by decide) (by decide) (by decide) (by decide) (by decide) (by decide)
    (by decide)
  exact ⟨h.1, h.2.1, h.2.2 [] 0⟩
